import Mathlib

/-!
Ferry simulation (`ferry.c`): shallow embedding and verified properties.

The C program runs one thread per vehicle (`vehicle_thread`) and one controller
thread (`ferry_manager`) over a handful of global integers.  The embedding keeps
the globals and the protocol-relevant fields of `Vehicle` as records of
integers, and turns each thread body into a step function over a program
counter.  One step is one stretch of code that runs without an intervening
synchronisation point: a critical section of `ferry_mutex` or `count_mutex`, or
the evaluation of one loop or `if` condition on the shared flags.

C `int` is embedded as `Int`: every quantity that the properties below talk
about stays far inside the 32-bit range (loads are at most the capacity, the
controller counters at most 3).

`FERRY_CAPACITY` is 20 in the program.  The step functions take the capacity
as an argument so that the scenario with capacity 5 can be run as well; the
high-watermark 15 and the cycle limit 3 of the controller are the literals of
the source.

Not embedded: the `type` string, `toll_used` and `work_cycles` of a vehicle,
`simulate_cpu_work`, `calculate_complex_math`, `busy_wait`, `pass_toll` and the
`printf` calls.  They never read or write the ferry state or the counters.
-/

namespace Ferry

/-! ## Constants (`#define`s, lines 10-17) -/

def FERRY_CAPACITY : Int := 20
def TOTAL_CARS : Int := 12
def TOTAL_MINIBUSES : Int := 10
def TOTAL_TRUCKS : Int := 8
def CAR_UNIT : Int := 1
def MINIBUS_UNIT : Int := 2
def TRUCK_UNIT : Int := 3
def TOTAL_VEHICLES : Int := TOTAL_CARS + TOTAL_MINIBUSES + TOTAL_TRUCKS

/-! ## Data model -/

/-- The `Vehicle` struct (lines 24-34), without the fields used only for
logging and simulated work. -/
structure Vehicle where
  size : Int
  id : Int
  start_side : Int
  current_side : Int
  completed : Int
  returned_home : Int
deriving DecidableEq, Repr

/-- The global variables (lines 37-44). -/
structure Globals where
  ferry_side : Int
  current_load : Int
  completed_vehicles : Int
  active_threads : Int
  stop_ferry : Int
  total_departures : Int
  vehicles_at_start : Int
deriving DecidableEq, Repr

/-- Program points of `vehicle_thread` (lines 379-536). -/
inductive VPc where
  /-- line 382: about to register in `active_threads` -/
  | start
  /-- line 393: condition of the first boarding loop -/
  | outLoop
  /-- lines 397-402: optimistic check under `ferry_mutex` -/
  | outTry
  /-- lines 404-420: re-check under `ferry_mutex` after the toll -/
  | outRecheck
  /-- line 430: stop test after the first boarding loop -/
  | outStop
  /-- line 439: condition of the outbound arrival loop -/
  | outArrive
  /-- lines 444-449: side test under `side_mutex` inside that loop -/
  | outArriveIn
  /-- lines 452-464: arrived, destination work, set-up of the return trip -/
  | arrived
  /-- line 465: condition of the return boarding loop -/
  | retLoop
  /-- lines 468-473: optimistic check for the return boarding -/
  | retTry
  /-- lines 475-491: re-check for the return boarding -/
  | retRecheck
  /-- line 501: stop test after the return boarding loop -/
  | retStop
  /-- lines 510-517: return arrival loop -/
  | retArrive
  /-- lines 522-527: completion block under `count_mutex` -/
  | complete
  /-- the thread has returned -/
  | done
deriving DecidableEq, Repr

/-- A vehicle thread: its `Vehicle`, its program point and its locals. -/
structure VThread where
  v : Vehicle
  pc : VPc
  destination_side : Int
  boarded_first : Int
  boarded_return : Int
deriving DecidableEq, Repr

/-- Program points of `ferry_manager` (lines 277-377). -/
inductive CPc where
  /-- line 282: outer loop condition, mutex not held -/
  | top
  /-- lines 287-290: lock and first evaluation of the wait-loop condition -/
  | locking
  /-- line 295: inside `pthread_cond_timedwait`, mutex released -/
  | waiting
  /-- lines 309-372: termination test and departure decision, mutex held -/
  | check
  /-- lines 329-340: sleeping with the mutex released before the re-poll -/
  | repoll
  /-- the controller has returned -/
  | done
deriving DecidableEq, Repr

/-- The locals of `ferry_manager` (lines 278-280) and its program point. -/
structure Ctrl where
  pc : CPc
  wait_cycles : Int
  empty_ferry_cycles : Int
  manager_work_cycles : Int
deriving DecidableEq, Repr

/-! ## `vehicle_thread` -/

/-- The boarding condition of lines 399-400, 406-407, 470-471 and 477-478:
`ferry_side == v->current_side && current_load + v->size <= FERRY_CAPACITY`. -/
def can_board (cap : Int) (g : Globals) (v : Vehicle) : Prop :=
  g.ferry_side = v.current_side ∧ g.current_load + v.size ≤ cap

instance (cap : Int) (g : Globals) (v : Vehicle) : Decidable (can_board cap g v) := by
  unfold can_board; infer_instance

/-- One step of `vehicle_thread` from program point `t.pc` on globals `g`.
The capacity is a parameter; the program runs with `FERRY_CAPACITY`. -/
def vehicle_thread_step (cap : Int) (g : Globals) (t : VThread) : Globals × VThread :=
  match t.pc with
  | .start =>
      ({ g with active_threads := g.active_threads + 1 },
       { t with destination_side := 1 - t.v.current_side, boarded_first := 0, pc := .outLoop })
  | .outLoop =>
      if t.boarded_first = 0 ∧ g.stop_ferry = 0 then (g, { t with pc := .outTry })
      else (g, { t with pc := .outStop })
  | .outTry =>
      if can_board cap g t.v then (g, { t with pc := .outRecheck })
      else (g, { t with pc := .outLoop })
  | .outRecheck =>
      if can_board cap g t.v then
        ({ g with current_load := g.current_load + t.v.size },
         { t with v := { t.v with current_side := t.destination_side },
                  boarded_first := 1, pc := .outLoop })
      else (g, { t with pc := .outLoop })
  | .outStop =>
      if g.stop_ferry ≠ 0 then
        ({ g with active_threads := g.active_threads - 1 }, { t with pc := .done })
      else (g, { t with pc := .outArrive })
  | .outArrive =>
      if g.ferry_side ≠ t.v.current_side ∧ g.stop_ferry = 0 then
        (g, { t with pc := .outArriveIn })
      else (g, { t with pc := .arrived })
  | .outArriveIn =>
      if g.ferry_side = t.v.current_side then (g, { t with pc := .arrived })
      else (g, { t with pc := .outArrive })
  | .arrived =>
      (g, { t with destination_side := t.v.start_side, boarded_return := 0, pc := .retLoop })
  | .retLoop =>
      if t.boarded_return = 0 ∧ g.stop_ferry = 0 then (g, { t with pc := .retTry })
      else (g, { t with pc := .retStop })
  | .retTry =>
      if can_board cap g t.v then (g, { t with pc := .retRecheck })
      else (g, { t with pc := .retLoop })
  | .retRecheck =>
      if can_board cap g t.v then
        ({ g with current_load := g.current_load + t.v.size },
         { t with v := { t.v with current_side := t.destination_side },
                  boarded_return := 1, pc := .retLoop })
      else (g, { t with pc := .retLoop })
  | .retStop =>
      if g.stop_ferry ≠ 0 then
        ({ g with active_threads := g.active_threads - 1 }, { t with pc := .done })
      else (g, { t with pc := .retArrive })
  | .retArrive =>
      if g.ferry_side ≠ t.v.current_side ∧ g.stop_ferry = 0 then (g, t)
      else (g, { t with pc := .complete })
  | .complete =>
      ({ g with completed_vehicles := g.completed_vehicles + 1,
                active_threads := g.active_threads - 1,
                vehicles_at_start := g.vehicles_at_start - 1 },
       { t with v := { t.v with returned_home := 1 }, pc := .done })
  | .done => (g, t)

/-! ## `ferry_manager` -/

/-- The wait-loop condition of line 290. -/
def awaiting_load (g : Globals) : Prop :=
  g.current_load = 0 ∧ g.stop_ferry = 0 ∧ g.completed_vehicles < TOTAL_VEHICLES

instance (g : Globals) : Decidable (awaiting_load g) := by
  unfold awaiting_load; infer_instance

/-- The departure block, lines 349-370, entered with `should_depart` set. -/
def depart (g : Globals) (c : Ctrl) : Globals × Ctrl :=
  ({ g with total_departures := g.total_departures + 1,
            current_load := 0,
            ferry_side := 1 - g.ferry_side },
   { c with wait_cycles := 0, empty_ferry_cycles := 0, pc := .top })

/-- One step of `ferry_manager`.  `timedout` is the outcome of
`pthread_cond_timedwait` (`wait_result == ETIMEDOUT`), read only at `waiting`. -/
def ferry_manager_step (cap : Int) (timedout : Bool) (g : Globals) (c : Ctrl) :
    Globals × Ctrl :=
  match c.pc with
  | .top =>
      if g.stop_ferry = 0 then
        (g, { c with manager_work_cycles := c.manager_work_cycles + 1, pc := .locking })
      else (g, { c with pc := .done })
  | .locking =>
      if awaiting_load g then (g, { c with pc := .waiting })
      else (g, { c with pc := .check })
  | .waiting =>
      if timedout then
        (g, { c with empty_ferry_cycles := c.empty_ferry_cycles + 1, pc := .check })
      else if awaiting_load g then
        (g, { c with empty_ferry_cycles := 0, wait_cycles := 0, pc := .waiting })
      else
        (g, { c with empty_ferry_cycles := 0, wait_cycles := 0, pc := .check })
  | .check =>
      if g.stop_ferry ≠ 0 ∨ g.completed_vehicles ≥ TOTAL_VEHICLES then
        (g, { c with pc := .done })
      else if g.current_load = 0 ∧ c.empty_ferry_cycles ≥ 1 then
        depart g { c with wait_cycles := c.wait_cycles + 1 }
      else if g.current_load ≥ cap then
        depart g { c with wait_cycles := c.wait_cycles + 1 }
      else if g.current_load > 0 then
        (g, { c with wait_cycles := c.wait_cycles + 1, pc := .repoll })
      else
        (g, { c with wait_cycles := c.wait_cycles + 1, pc := .top })
  | .repoll =>
      if g.current_load ≥ 15 ∨ c.wait_cycles ≥ 3 then depart g c
      else (g, { c with pc := .top })
  | .done => (g, c)

/-- The value of `should_depart` at line 349 of one decision cycle (lines
314-347): `load` is `current_load` at line 322, `empty` is
`empty_ferry_cycles`, `wait` is `wait_cycles` before the increment of line 316
and `reload` is `current_load` as re-read at line 343 after the sleep. -/
def should_depart (cap load empty wait reload : Int) : Int :=
  let wait_cycles := wait + 1
  if load = 0 ∧ empty ≥ 1 then 1
  else if load ≥ cap then 1
  else if load > 0 then
    if reload ≥ 15 ∨ wait_cycles ≥ 3 then 1 else 0
  else 0

/-- The departure policy in the words of the specification: triggers in the
priority order full, empty-timeout, partial. -/
def should_depart_spec (cap load timeouts wait_count reload : Int) : Bool :=
  if load ≥ cap then true
  else if load = 0 ∧ timeouts ≥ 1 then true
  else if 0 < load ∧ load < cap then
    decide (wait_count ≥ 3 ∨ reload ≥ 15)
  else false

/-! ## The whole program -/

/-- Globals, controller and vehicle threads. -/
structure Sys where
  g : Globals
  ctrl : Ctrl
  vs : List VThread
deriving DecidableEq, Repr

/-- What the scheduler can do next: run vehicle thread `i` for one step, run the
controller for one step, or raise `stop_ferry` under `ferry_mutex` as lines
144-147 do.  In `main` that write comes after every vehicle thread has been
joined (lines 139-141); here it may come at any time, so the runs of the
program are among the schedules and the schedules with an early stop are extra
runs.  Statements about every schedule therefore cover every run of the
program; no statement below rests on a state that only an early stop reaches. -/
inductive Action where
  | vehicle (i : Nat)
  | controller (timedout : Bool)
  | stop
deriving DecidableEq, Repr

/-- The vehicle steps that lock `ferry_mutex`. -/
def needs_ferry_mutex : VPc → Bool
  | .outTry | .outRecheck | .retTry | .retRecheck => true
  | _ => false

/-- One scheduled step.  The controller owns `ferry_mutex` exactly at `check`;
a step that needs the mutex then does not run. -/
def sysStep (cap : Int) (a : Action) (s : Sys) : Sys :=
  match a with
  | .vehicle i =>
      match s.vs[i]? with
      | none => s
      | some t =>
          if needs_ferry_mutex t.pc = true ∧ s.ctrl.pc = .check then s
          else
            { s with g := (vehicle_thread_step cap s.g t).1,
                     vs := s.vs.set i (vehicle_thread_step cap s.g t).2 }
  | .controller b =>
      { s with g := (ferry_manager_step cap b s.g s.ctrl).1,
               ctrl := (ferry_manager_step cap b s.g s.ctrl).2 }
  | .stop =>
      if s.ctrl.pc = .check then s
      else { s with g := { s.g with stop_ferry := 1 } }

/-- Run a schedule. -/
def run (cap : Int) : List Action → Sys → Sys
  | [], s => s
  | a :: rest, s => run cap rest (sysStep cap a s)

/-- A vehicle as `main` creates it (lines 90-98). -/
def mkVehicle (size id start_side : Int) : Vehicle :=
  { size := size, id := id, start_side := start_side, current_side := start_side,
    completed := 0, returned_home := 0 }

/-- A freshly created thread for a vehicle. -/
def spawn (v : Vehicle) : VThread :=
  { v := v, pc := .start, destination_side := 0, boarded_first := 0, boarded_return := 0 }

/-- The state in which `main` starts the threads: ferry at `side`, no load. -/
def initSys (side : Int) (fleet : List Vehicle) : Sys :=
  { g := { ferry_side := side, current_load := 0, completed_vehicles := 0,
           active_threads := 0, stop_ferry := 0, total_departures := 0,
           vehicles_at_start := TOTAL_VEHICLES },
    ctrl := { pc := .top, wait_cycles := 0, empty_ferry_cycles := 0,
              manager_work_cycles := 0 },
    vs := fleet.map spawn }

/-- A vehicle as `main` can create it: one of the three unit sizes, a side in
`{0, 1}`, standing at its start side with both flags clear. -/
def Vehicle.fresh (v : Vehicle) : Prop :=
  (v.size = CAR_UNIT ∨ v.size = MINIBUS_UNIT ∨ v.size = TRUCK_UNIT) ∧
  (v.start_side = 0 ∨ v.start_side = 1) ∧
  v.current_side = v.start_side ∧ v.completed = 0 ∧ v.returned_home = 0

instance (v : Vehicle) : Decidable v.fresh := by
  unfold Vehicle.fresh; infer_instance

/-! ## Observers of a run -/

/-- Number of steps of a schedule, run from `s`, at which `p` holds of the
action and the state it is taken in. -/
def countSteps (cap : Int) (p : Action → Sys → Bool) : List Action → Sys → Nat
  | [], _ => 0
  | a :: rest, s => (if p a s then 1 else 0) + countSteps cap p rest (sysStep cap a s)

/-- The step is a committed boarding of vehicle `i`: a step of thread `i` that
changes `current_load`. -/
def is_boarding (cap : Int) (i : Nat) (a : Action) (s : Sys) : Bool :=
  decide (a = .vehicle i ∧ (sysStep cap a s).g.current_load ≠ s.g.current_load)

/-- The step gives vehicle `i` its completion credit: a step of thread `i` that
changes `completed_vehicles`. -/
def is_completion (cap : Int) (i : Nat) (a : Action) (s : Sys) : Bool :=
  decide (a = .vehicle i ∧
    (sysStep cap a s).g.completed_vehicles ≠ s.g.completed_vehicles)

/-- The step is a departure: it changes `total_departures` (line 350). -/
def is_departure (cap : Int) (a : Action) (s : Sys) : Bool :=
  decide ((sysStep cap a s).g.total_departures ≠ s.g.total_departures)

/-- Committed boardings of vehicle `i` along a run. -/
def boardings (cap : Int) (i : Nat) (acts : List Action) (s : Sys) : Nat :=
  countSteps cap (is_boarding cap i) acts s

/-- Completion credits of vehicle `i` along a run. -/
def completions (cap : Int) (i : Nat) (acts : List Action) (s : Sys) : Nat :=
  countSteps cap (is_completion cap i) acts s

/-- The size of the vehicle that a step accepts on board, 0 when the step is
not a committed boarding. -/
def accepted_size (cap : Int) (a : Action) (s : Sys) : Int :=
  match a with
  | .vehicle i =>
      match s.vs[i]? with
      | some t =>
          if (sysStep cap a s).g.current_load ≠ s.g.current_load then t.v.size else 0
      | none => 0
  | _ => 0

/-- Sum of the sizes of the vehicles accepted since the most recent departure
of the run (since `acc` was last reset), starting from the sum `acc`. -/
def accepted_since_departure (cap : Int) : List Action → Sys → Int → Int
  | [], _, acc => acc
  | a :: rest, s, acc =>
      if is_departure cap a s = true then
        accepted_since_departure cap rest (sysStep cap a s) 0
      else
        accepted_since_departure cap rest (sysStep cap a s) (acc + accepted_size cap a s)

/-- Scenario B: three minibuses (size 2) at side 0. -/
def fleetB : List Vehicle :=
  [mkVehicle MINIBUS_UNIT 1 0, mkVehicle MINIBUS_UNIT 2 0, mkVehicle MINIBUS_UNIT 3 0]

/-- Scenario B: each of the three threads registers, enters the boarding loop
and passes the optimistic check on the empty ferry; then the three re-checks run
one after the other. -/
def scheduleB : List Action :=
  [.vehicle 0, .vehicle 0, .vehicle 0, .vehicle 1, .vehicle 1, .vehicle 1,
   .vehicle 2, .vehicle 2, .vehicle 2, .vehicle 0, .vehicle 1, .vehicle 2]

/-- Boarded flags of thread `i`, added up (0 when there is no thread `i`). -/
def flags (s : Sys) (i : Nat) : Int :=
  match s.vs[i]? with
  | some t => t.boarded_first + t.boarded_return
  | none => 0

/-- The `returned_home` mark of thread `i` (0 when there is no thread `i`). -/
def credit (s : Sys) (i : Nat) : Int :=
  match s.vs[i]? with
  | some t => t.v.returned_home
  | none => 0

/-- One car starting at side 0. -/
def fleetA : List Vehicle := [mkVehicle CAR_UNIT 1 0]

/-- Vehicle 0 runs `n` steps in a row. -/
def vehicleSteps (n : Nat) : List Action := List.replicate n (.vehicle 0)

/-- The controller runs `n` steps in a row, no wait timing out. -/
def controllerSteps (n : Nat) : List Action := List.replicate n (.controller false)

/-- A round trip of the car of `fleetA` up to the return arrival loop: the car
boards (6 steps), the controller departs on its third decision cycle (12
steps), the car arrives, boards for the return and passes the stop test of
line 501 (7 steps). -/
def scheduleOut : List Action :=
  vehicleSteps 6 ++ controllerSteps 12 ++ vehicleSteps 7

/-- The round trip completed: the controller departs again and the car sees
the ferry at its home side and completes. -/
def scheduleRound : List Action :=
  scheduleOut ++ controllerSteps 12 ++ vehicleSteps 2

/-- The recorded current side of vehicle `i`. -/
def curSide (s : Sys) (i : Nat) : Option Int :=
  match s.vs[i]? with
  | some t => some t.v.current_side
  | none => none

/-- Departures along a run. -/
def departures (cap : Int) (acts : List Action) (s : Sys) : Nat :=
  countSteps cap (is_departure cap) acts s

/-- The step is a departure decision of the controller: a controller step
taken at `check` with the test of line 309 false. -/
def is_decision (a : Action) (s : Sys) : Bool :=
  match a with
  | .controller _ =>
      decide (s.ctrl.pc = .check ∧ s.g.stop_ferry = 0 ∧
        s.g.completed_vehicles < TOTAL_VEHICLES)
  | _ => false

/-- Departure decisions along a run. -/
def decisions (cap : Int) (acts : List Action) (s : Sys) : Nat :=
  countSteps cap is_decision acts s

/-- A schedule on which thread 0 reaches its outbound re-check. -/
def scheduleRecheck : List Action := [.vehicle 0, .vehicle 0, .vehicle 0]

/-- The ferry docked at side 0 with load 4. -/
def ferryLoaded : Globals :=
  { ferry_side := 0, current_load := 4, completed_vehicles := 0, active_threads := 3,
    stop_ferry := 0, total_departures := 0, vehicles_at_start := TOTAL_VEHICLES }

/-- The car of `fleetA` has boarded and the controller has just locked the
mutex and found a positive load: it stands at `check`. -/
def scheduleDecision : List Action := vehicleSteps 6 ++ controllerSteps 2

/-- The first `n` steps of an infinite schedule. -/
def firstSteps (f : Nat → Action) (n : Nat) : List Action := (List.range n).map f

/-- Position of step `n` in the schedule `starve`: 0, 1, 2 for the three opening
steps, then 3 to 15 round and round. -/
def starvePhase (n : Nat) : Nat := if n < 3 then n else 3 + (n - 3) % 13

/-- The action of `starve` at a position. -/
def starveAction (p : Nat) : Action :=
  if (3 ≤ p ∧ p < 7) ∨ (11 ≤ p ∧ p < 15) then .controller true else .vehicle 0

/-- An infinite schedule for the car of `fleetA` and the controller.  The car
registers, enters the boarding loop and passes the optimistic check (3 steps).
Then, for ever: while the car is at the toll the controller's wait times out
and the empty ferry departs (4 steps); the car's re-check fails, and so does its
next optimistic check (4 steps); the wait times out again and the ferry comes
back (4 steps); the car passes the optimistic check (1 step). -/
def starve (n : Nat) : Action := starveAction (starvePhase n)

/-- The position that follows a position of `starve`. -/
def starveNext (p : Nat) : Nat := if p = 15 then 3 else p + 1

/-- Program point of the controller at a position of `starve`. -/
def starveCtrl (p : Nat) : CPc :=
  if p = 4 ∨ p = 12 then .locking
  else if p = 5 ∨ p = 13 then .waiting
  else if p = 6 ∨ p = 14 then .check
  else .top

/-- Program point of the car at a position of `starve`. -/
def starveCar (p : Nat) : VPc :=
  if p = 0 then .start
  else if p = 1 ∨ p = 8 ∨ p = 10 then .outLoop
  else if 3 ≤ p ∧ p ≤ 7 then .outRecheck
  else .outTry

/-- The state of the program at a position of `starve`, up to the counters
`total_departures`, `manager_work_cycles`, `active_threads` and
`vehicles_at_start`: nothing on board, nothing completed, no stop, the car not
boarded and recorded at side 0. -/
def Starved (p : Nat) (s : Sys) : Prop :=
  s.g.current_load = 0 ∧ s.g.completed_vehicles = 0 ∧ s.g.stop_ferry = 0 ∧
  s.g.ferry_side = (if 7 ≤ p ∧ p ≤ 14 then 1 else 0) ∧
  s.ctrl.pc = starveCtrl p ∧ s.ctrl.wait_cycles = 0 ∧
  s.ctrl.empty_ferry_cycles = (if p = 6 ∨ p = 14 then 1 else 0) ∧
  s.vs = [{ v := mkVehicle CAR_UNIT 1 0, pc := starveCar p,
            destination_side := (if p = 0 then 0 else 1),
            boarded_first := 0, boarded_return := 0 }]

/-! ## Invariants -/

/-- What holds of a vehicle thread at each program point; `stop` is the current
value of `stop_ferry`. -/
def VInv (stop : Int) (t : VThread) : Prop :=
  1 ≤ t.v.size ∧ t.v.size ≤ 3 ∧
  match t.pc with
  | .start =>
      t.v.current_side = t.v.start_side ∧ t.boarded_first = 0 ∧ t.boarded_return = 0 ∧
      t.v.returned_home = 0
  | .outLoop =>
      t.destination_side = 1 - t.v.start_side ∧ t.boarded_return = 0 ∧
      t.v.returned_home = 0 ∧
      ((t.boarded_first = 0 ∧ t.v.current_side = t.v.start_side) ∨
       (t.boarded_first = 1 ∧ t.v.current_side = 1 - t.v.start_side))
  | .outTry | .outRecheck =>
      t.destination_side = 1 - t.v.start_side ∧ t.boarded_return = 0 ∧
      t.v.returned_home = 0 ∧ t.boarded_first = 0 ∧ t.v.current_side = t.v.start_side
  | .outStop =>
      t.boarded_return = 0 ∧ t.v.returned_home = 0 ∧
      ((t.boarded_first = 0 ∧ stop ≠ 0) ∨
       (t.boarded_first = 1 ∧ t.v.current_side = 1 - t.v.start_side))
  | .outArrive | .outArriveIn | .arrived =>
      t.boarded_return = 0 ∧ t.v.returned_home = 0 ∧ t.boarded_first = 1 ∧
      t.v.current_side = 1 - t.v.start_side
  | .retLoop =>
      t.destination_side = t.v.start_side ∧ t.v.returned_home = 0 ∧ t.boarded_first = 1 ∧
      ((t.boarded_return = 0 ∧ t.v.current_side = 1 - t.v.start_side) ∨
       (t.boarded_return = 1 ∧ t.v.current_side = t.v.start_side))
  | .retTry | .retRecheck =>
      t.destination_side = t.v.start_side ∧ t.v.returned_home = 0 ∧ t.boarded_first = 1 ∧
      t.boarded_return = 0 ∧ t.v.current_side = 1 - t.v.start_side
  | .retStop =>
      t.v.returned_home = 0 ∧ t.boarded_first = 1 ∧
      ((t.boarded_return = 0 ∧ stop ≠ 0) ∨
       (t.boarded_return = 1 ∧ t.v.current_side = t.v.start_side))
  | .retArrive | .complete =>
      t.v.returned_home = 0 ∧ t.boarded_first = 1 ∧ t.boarded_return = 1 ∧
      t.v.current_side = t.v.start_side
  | .done =>
      (t.boarded_first = 0 ∨ t.boarded_first = 1) ∧
      (t.boarded_return = 0 ∨ t.boarded_return = 1) ∧
      (t.v.returned_home = 0 ∨
       (t.v.returned_home = 1 ∧ t.boarded_first = 1 ∧ t.boarded_return = 1))

/-- What holds of the controller locals at each program point. -/
def CInv (g : Globals) (c : Ctrl) : Prop :=
  0 ≤ c.empty_ferry_cycles ∧ 0 ≤ c.wait_cycles ∧
  match c.pc with
  | .top | .locking => c.wait_cycles ≤ 2 ∧ (0 < c.wait_cycles → 0 < g.current_load)
  | .waiting => c.wait_cycles = 0
  | .check =>
      c.wait_cycles ≤ 2 ∧ (0 < c.wait_cycles → 0 < g.current_load) ∧
      (g.current_load ≠ 0 ∨ g.stop_ferry ≠ 0 ∨ g.completed_vehicles ≥ TOTAL_VEHICLES ∨
       1 ≤ c.empty_ferry_cycles)
  | .repoll => 1 ≤ c.wait_cycles ∧ c.wait_cycles ≤ 3 ∧ 0 < g.current_load
  | .done => c.wait_cycles ≤ 2

/-- The invariant of the whole program. -/
structure Inv (cap : Int) (s : Sys) : Prop where
  load_nonneg : 0 ≤ s.g.current_load
  load_le : s.g.current_load ≤ cap
  threads : ∀ t ∈ s.vs, VInv s.g.stop_ferry t
  ctrl : CInv s.g s.ctrl

/-- Number of vehicles marked `returned_home`. -/
def homeCount : List VThread → Int
  | [] => 0
  | t :: rest => t.v.returned_home + homeCount rest

/-- Steps that a thread still has to take to its end when each of them
succeeds. -/
def trip_rank (t : VThread) : Nat :=
  match t.pc with
  | .start => 15
  | .outLoop => if t.boarded_first = 0 then 14 else 11
  | .outTry => 13
  | .outRecheck => 12
  | .outStop => 10
  | .outArrive | .outArriveIn => 9
  | .arrived => 8
  | .retLoop => if t.boarded_return = 0 then 7 else 4
  | .retTry => 6
  | .retRecheck => 5
  | .retStop => 3
  | .retArrive => 2
  | .complete => 1
  | .done => 0

/-- Bound on the controller steps to the next departure when every wait times
out. -/
def ctrl_rank (c : Ctrl) : Int :=
  5 * (3 - c.wait_cycles) +
    (match c.pc with
      | .top => 4
      | .locking => 3
      | .waiting => 2
      | .check => 1
      | .repoll => 5
      | .done => 0)

/-- A schedule of controller steps with the given wait outcomes. -/
def controllerOnly (bs : List Bool) : List Action := bs.map (fun b => .controller b)

/-- What holds in addition in the states reached without the stop signal from a
start state with the ferry at side 0 or 1. -/
structure Live (s : Sys) : Prop where
  no_stop : s.g.stop_ferry = 0
  side01 : s.g.ferry_side = 0 ∨ s.g.ferry_side = 1
  threads : ∀ t ∈ s.vs, (t.v.start_side = 0 ∨ t.v.start_side = 1) ∧
    (t.pc = .done → t.v.returned_home = 1)
  ctrl_done : s.ctrl.pc = .done → TOTAL_VEHICLES ≤ s.g.completed_vehicles
  counted : s.g.completed_vehicles = homeCount s.vs

/-! ## Step lemmas -/

theorem VInv_step (cap : Int) (g : Globals) (t : VThread) (h : VInv g.stop_ferry t) :
    VInv g.stop_ferry (vehicle_thread_step cap g t).2 := by
  obtain ⟨v, pc, d, bf, br⟩ := t
  obtain ⟨h1, h2, h3⟩ := h
  cases pc <;> simp only [vehicle_thread_step] <;> simp only [VInv] at h3 ⊢ <;>
    (try split_ifs) <;> simp_all <;> (try omega)

theorem VInv_stop (stop stop1 : Int) (t : VThread) (hs : stop ≠ 0 → stop1 ≠ 0)
    (h : VInv stop t) : VInv stop1 t := by
  obtain ⟨v, pc, d, bf, br⟩ := t
  obtain ⟨h1, h2, h3⟩ := h
  cases pc <;> simp only [VInv] at h3 ⊢ <;> simp_all <;> (try tauto)

theorem vstep_stop (cap : Int) (g : Globals) (t : VThread) :
    (vehicle_thread_step cap g t).1.stop_ferry = g.stop_ferry := by
  obtain ⟨v, pc, d, bf, br⟩ := t
  cases pc <;> simp only [vehicle_thread_step] <;> (try split_ifs) <;> rfl

theorem vstep_side (cap : Int) (g : Globals) (t : VThread) :
    (vehicle_thread_step cap g t).1.ferry_side = g.ferry_side := by
  obtain ⟨v, pc, d, bf, br⟩ := t
  cases pc <;> simp only [vehicle_thread_step] <;> (try split_ifs) <;> rfl

theorem vstep_departures (cap : Int) (g : Globals) (t : VThread) :
    (vehicle_thread_step cap g t).1.total_departures = g.total_departures := by
  obtain ⟨v, pc, d, bf, br⟩ := t
  cases pc <;> simp only [vehicle_thread_step] <;> (try split_ifs) <;> rfl

theorem vstep_completed (cap : Int) (g : Globals) (t : VThread) :
    g.completed_vehicles ≤ (vehicle_thread_step cap g t).1.completed_vehicles := by
  obtain ⟨v, pc, d, bf, br⟩ := t
  cases pc <;> simp only [vehicle_thread_step] <;> (try split_ifs) <;> simp

/-- A vehicle step either leaves the load alone or is a re-check that passed and
added the vehicle's size. -/
theorem vstep_load (cap : Int) (g : Globals) (t : VThread) :
    (vehicle_thread_step cap g t).1.current_load = g.current_load ∨
    ((t.pc = .outRecheck ∨ t.pc = .retRecheck) ∧ can_board cap g t.v ∧
      (vehicle_thread_step cap g t).1.current_load = g.current_load + t.v.size) := by
  obtain ⟨v, pc, d, bf, br⟩ := t
  cases pc <;> simp only [vehicle_thread_step] <;> (try split_ifs) <;> simp_all

theorem CInv_ferry_step (cap : Int) (b : Bool) (g : Globals) (c : Ctrl)
    (hl : 0 ≤ g.current_load) (h : CInv g c) :
    CInv (ferry_manager_step cap b g c).1 (ferry_manager_step cap b g c).2 := by
  obtain ⟨pc, w, e, m⟩ := c
  obtain ⟨h1, h2, h3⟩ := h
  cases pc <;> simp only [ferry_manager_step, depart, awaiting_load] <;>
    simp only [CInv] at h3 ⊢ <;> (try split_ifs) <;> dsimp only at * <;> omega

/-- The controller invariant survives what the other threads can do to the
globals: raise the load or the completed count, raise the stop flag; while the
controller owns the mutex the load stays put. -/
theorem CInv_env (g g1 : Globals) (c : Ctrl) (h : CInv g c)
    (hload : g.current_load ≤ g1.current_load)
    (hcomp : g.completed_vehicles ≤ g1.completed_vehicles)
    (hstop : g.stop_ferry ≠ 0 → g1.stop_ferry ≠ 0)
    (hlock : c.pc = .check → g1.current_load = g.current_load) :
    CInv g1 c := by
  obtain ⟨pc, w, e, m⟩ := c
  obtain ⟨h1, h2, h3⟩ := h
  cases pc <;> simp only [CInv] at h3 ⊢ <;> dsimp only at * <;>
    simp only [true_implies, reduceCtorEq, false_implies] at hlock <;> omega

theorem fstep_load (cap : Int) (b : Bool) (g : Globals) (c : Ctrl)
    (hl : 0 ≤ g.current_load) (hc : g.current_load ≤ cap) (hcap : 0 ≤ cap) :
    0 ≤ (ferry_manager_step cap b g c).1.current_load ∧
    (ferry_manager_step cap b g c).1.current_load ≤ cap := by
  obtain ⟨pc, w, e, m⟩ := c
  cases pc <;> simp only [ferry_manager_step, depart] <;> (try split_ifs) <;>
    (try dsimp only) <;> omega

theorem fstep_stop (cap : Int) (b : Bool) (g : Globals) (c : Ctrl) :
    (ferry_manager_step cap b g c).1.stop_ferry = g.stop_ferry := by
  obtain ⟨pc, w, e, m⟩ := c
  cases pc <;> simp only [ferry_manager_step, depart] <;> (try split_ifs) <;> rfl

theorem needs_of_recheck (pc : VPc) (h : pc = .outRecheck ∨ pc = .retRecheck) :
    needs_ferry_mutex pc = true := by
  rcases h with h | h <;> subst h <;> rfl

theorem Inv_step (cap : Int) (hcap : 0 ≤ cap) (a : Action) (s : Sys) (h : Inv cap s) :
    Inv cap (sysStep cap a s) := by
  cases a with
  | vehicle i =>
    simp only [sysStep]
    cases hi : s.vs[i]? with
    | none => exact h
    | some t =>
      dsimp only
      split_ifs with hm
      · exact h
      · have hv := h.threads t (List.getElem?_mem hi)
        have hload := vstep_load cap s.g t
        have hl0 := h.load_nonneg
        have hl1 := h.load_le
        have hsz := hv.1
        refine ⟨?_, ?_, ?_, ?_⟩
        · rcases hload with h1 | ⟨_, _, h1⟩ <;> dsimp only <;> omega
        · rcases hload with h1 | ⟨_, h2, h1⟩
          · dsimp only; omega
          · have := h2.2
            dsimp only; omega
        · intro t1 ht1
          dsimp only at ht1 ⊢
          rw [vstep_stop]
          rcases List.mem_or_eq_of_mem_set ht1 with h1 | h1
          · exact h.threads t1 h1
          · rw [h1]; exact VInv_step cap s.g t hv
        · dsimp only
          refine CInv_env s.g _ s.ctrl h.ctrl ?_ (vstep_completed cap s.g t) ?_ ?_
          · rcases hload with h1 | ⟨_, _, h1⟩ <;> omega
          · rw [vstep_stop]; exact id
          · intro hc
            rcases hload with h1 | ⟨h2, _, _⟩
            · exact h1
            · exact absurd ⟨needs_of_recheck _ h2, hc⟩ hm
  | controller b =>
    simp only [sysStep]
    have hl := fstep_load cap b s.g s.ctrl h.load_nonneg h.load_le hcap
    refine ⟨hl.1, hl.2, ?_, CInv_ferry_step cap b s.g s.ctrl h.load_nonneg h.ctrl⟩
    intro t ht
    dsimp only at ht ⊢
    rw [fstep_stop]
    exact h.threads t ht
  | stop =>
    simp only [sysStep]
    split_ifs with hc
    · exact h
    · refine ⟨h.load_nonneg, h.load_le, ?_, ?_⟩
      · intro t ht
        exact VInv_stop s.g.stop_ferry 1 t (fun _ => one_ne_zero) (h.threads t ht)
      · exact CInv_env s.g _ s.ctrl h.ctrl (le_refl _) (le_refl _) (fun _ => one_ne_zero)
          (fun _ => rfl)

theorem Inv_run (cap : Int) (hcap : 0 ≤ cap) (acts : List Action) (s : Sys)
    (h : Inv cap s) : Inv cap (run cap acts s) := by
  induction acts generalizing s with
  | nil => exact h
  | cons a rest ih => exact ih _ (Inv_step cap hcap a s h)

theorem Inv_init (cap : Int) (hcap : 0 ≤ cap) (side : Int) (fleet : List Vehicle)
    (hf : ∀ v ∈ fleet, v.fresh) : Inv cap (initSys side fleet) := by
  refine ⟨le_refl _, hcap, ?_, ?_⟩
  · intro t ht
    simp only [initSys, List.mem_map] at ht
    obtain ⟨v, hv, rfl⟩ := ht
    obtain ⟨h1, _, h3, _, h5⟩ := hf v hv
    simp only [VInv, spawn, CAR_UNIT, MINIBUS_UNIT, TRUCK_UNIT] at h1 ⊢
    refine ⟨by omega, by omega, h3, trivial, trivial, h5⟩
  · simp [CInv, initSys]

/-- Every state of every run from a start state of `main` satisfies `Inv`. -/
theorem Inv_reach (cap : Int) (hcap : 0 ≤ cap) (side : Int) (fleet : List Vehicle)
    (hf : ∀ v ∈ fleet, v.fresh) (acts : List Action) :
    Inv cap (run cap acts (initSys side fleet)) :=
  Inv_run cap hcap acts _ (Inv_init cap hcap side fleet hf)

/-- A controller step either leaves the globals alone or is a departure. -/
theorem fstep_globals (cap : Int) (b : Bool) (g : Globals) (c : Ctrl) :
    (ferry_manager_step cap b g c).1 = g ∨
    (ferry_manager_step cap b g c).1 =
      { g with total_departures := g.total_departures + 1, current_load := 0,
               ferry_side := 1 - g.ferry_side } := by
  obtain ⟨pc, w, e, m⟩ := c
  cases pc <;> simp only [ferry_manager_step, depart] <;> (try split_ifs) <;> simp

/-- A scheduled vehicle step either does nothing or runs thread `i`. -/
theorem sysStep_vehicle_cases (cap : Int) (i : Nat) (s : Sys) :
    ((s.vs[i]? = none ∨
        ∃ t, s.vs[i]? = some t ∧ needs_ferry_mutex t.pc = true ∧ s.ctrl.pc = .check) ∧
      sysStep cap (.vehicle i) s = s) ∨
    ∃ t, s.vs[i]? = some t ∧ ¬ (needs_ferry_mutex t.pc = true ∧ s.ctrl.pc = .check) ∧
      sysStep cap (.vehicle i) s =
        { s with g := (vehicle_thread_step cap s.g t).1,
                 vs := s.vs.set i (vehicle_thread_step cap s.g t).2 } := by
  obtain hi | ⟨t, hi⟩ := Option.eq_none_or_eq_some (s.vs[i]?)
  · left; exact ⟨Or.inl hi, by simp only [sysStep, hi]⟩
  · by_cases hm : needs_ferry_mutex t.pc = true ∧ s.ctrl.pc = .check
    · left; exact ⟨Or.inr ⟨t, hi, hm⟩, by simp only [sysStep, hi, hm, and_self, if_true]⟩
    · right; exact ⟨t, hi, hm, by simp only [sysStep, hi, hm, if_false]⟩

theorem sysStep_stop_cases (cap : Int) (s : Sys) :
    sysStep cap .stop s = s ∨
    (s.ctrl.pc ≠ .check ∧ sysStep cap .stop s = { s with g := { s.g with stop_ferry := 1 } }) := by
  by_cases hc : s.ctrl.pc = .check
  · left; simp only [sysStep, hc, if_true]
  · right; exact ⟨hc, by simp only [sysStep, hc, if_false]⟩

theorem accepted_size_vehicle (cap : Int) (i : Nat) (s : Sys) (t : VThread)
    (hi : s.vs[i]? = some t) :
    accepted_size cap (.vehicle i) s =
      if (sysStep cap (.vehicle i) s).g.current_load ≠ s.g.current_load then t.v.size
      else 0 := by
  simp only [accepted_size, hi]

theorem accepted_size_none (cap : Int) (i : Nat) (s : Sys) (hi : s.vs[i]? = none) :
    accepted_size cap (.vehicle i) s = 0 := by
  simp only [accepted_size, hi]

/-- Without a departure the load grows by exactly the accepted size; a
departure empties the ferry. -/
theorem step_load_accounting (cap : Int) (a : Action) (s : Sys) (h : Inv cap s) :
    (is_departure cap a s = true ∧ (sysStep cap a s).g.current_load = 0) ∨
    (is_departure cap a s = false ∧
      (sysStep cap a s).g.current_load = s.g.current_load + accepted_size cap a s) := by
  cases a with
  | vehicle i =>
    right
    rcases sysStep_vehicle_cases cap i s with ⟨hi, he⟩ | ⟨t, hi, hm, he⟩
    · refine ⟨by simp [is_departure, he], ?_⟩
      rcases hi with hi | ⟨t, hi, _⟩
      · rw [accepted_size_none cap i s hi, he]; simp
      · rw [accepted_size_vehicle cap i s t hi, he]; simp
    · have hv := (h.threads t (List.getElem?_mem hi)).1
      refine ⟨by simp [is_departure, he, vstep_departures], ?_⟩
      rw [accepted_size_vehicle cap i s t hi, he]
      dsimp only
      rcases vstep_load cap s.g t with h1 | ⟨_, _, h1⟩
      · simp [h1]
      · rw [h1, if_pos (by omega)]
  | controller b =>
    rcases fstep_globals cap b s.g s.ctrl with h1 | h1
    · right
      simp [is_departure, sysStep, h1, accepted_size]
    · left
      simp [is_departure, sysStep, h1]
  | stop =>
    right
    rcases sysStep_stop_cases cap s with he | ⟨_, he⟩ <;>
      simp [is_departure, he, accepted_size]

theorem accepted_eq_load (cap : Int) (hcap : 0 ≤ cap) (acts : List Action) (s : Sys)
    (h : Inv cap s) (acc : Int) (hacc : acc = s.g.current_load) :
    accepted_since_departure cap acts s acc = (run cap acts s).g.current_load := by
  induction acts generalizing s acc with
  | nil => exact hacc
  | cons a rest ih =>
    have hnext := Inv_step cap hcap a s h
    simp only [accepted_since_departure, run]
    rcases step_load_accounting cap a s h with ⟨hd, hl⟩ | ⟨hd, hl⟩
    · rw [if_pos hd]; exact ih _ hnext 0 hl.symm
    · rw [if_neg (by simp [hd])]; exact ih _ hnext _ (by rw [hl, hacc])

/-- C1 (capacity invariant).  In every state that any schedule of vehicle steps,
controller steps and the stop signal reaches from a start state of `main`
(empty ferry, vehicles of size 1, 2 or 3), `0 ≤ current_load ≤ capacity`; the
sizes of the vehicles accepted since the most recent departure add up to
`current_load`, hence to at most the capacity.  Scenario B (capacity 5, three
size-2 vehicles at the docked side of the empty ferry): the first two re-checks
accept, the load becomes 4 and the third re-check rejects. -/
theorem capacity_invariant (cap : Int) (hcap : 0 ≤ cap) (side : Int)
    (fleet : List Vehicle) (hf : ∀ v ∈ fleet, v.fresh) (acts : List Action) :
    (0 ≤ (run cap acts (initSys side fleet)).g.current_load ∧
     (run cap acts (initSys side fleet)).g.current_load ≤ cap) ∧
    (accepted_since_departure cap acts (initSys side fleet) 0
        = (run cap acts (initSys side fleet)).g.current_load ∧
     accepted_since_departure cap acts (initSys side fleet) 0 ≤ cap) ∧
    ((run 5 scheduleB (initSys 0 fleetB)).g.current_load = 4 ∧
     boardings 5 0 scheduleB (initSys 0 fleetB) = 1 ∧
     boardings 5 1 scheduleB (initSys 0 fleetB) = 1 ∧
     boardings 5 2 scheduleB (initSys 0 fleetB) = 0 ∧
     (run 5 scheduleB (initSys 0 fleetB)).vs.map (fun t => t.boarded_first) = [1, 1, 0]) := by
  have hinv := Inv_reach cap hcap side fleet hf acts
  have hacc := accepted_eq_load cap hcap acts (initSys side fleet)
    (Inv_init cap hcap side fleet hf) 0 rfl
  refine ⟨⟨hinv.load_nonneg, hinv.load_le⟩, ⟨hacc, ?_⟩, ?_⟩
  · rw [hacc]; exact hinv.load_le
  · decide

theorem capacity_invariant_witness :
    (0 ≤ (run 5 scheduleB (initSys 0 fleetB)).g.current_load ∧
     (run 5 scheduleB (initSys 0 fleetB)).g.current_load ≤ 5) ∧
    accepted_since_departure 5 scheduleB (initSys 0 fleetB) 0 ≤ 5 :=
  ⟨(capacity_invariant 5 (by decide) 0 fleetB (by decide) scheduleB).1,
   (capacity_invariant 5 (by decide) 0 fleetB (by decide) scheduleB).2.1.2⟩

/-- C2 (boarding check).  Take any vehicle thread of any reachable state that
stands at a re-check under the ferry lock (outbound at lines 406-417, return at
lines 477-488) and any ferry state `g`.  The step accepts (sets the thread's
boarded flag, which was 0) if and only if `ferry_side = current_side` and
`current_load + size ≤ capacity`; when it accepts, the new load is
`current_load + size`, `ferry_side` is unchanged and the vehicle's new
`current_side` is `1 - ferry_side`, which on the return boarding is the
assigned `start_side`. -/
theorem tryBoard_acceptance (cap : Int) (hcap : 0 ≤ cap) (side : Int)
    (fleet : List Vehicle) (hf : ∀ v ∈ fleet, v.fresh) (acts : List Action)
    (i : Nat) (t : VThread)
    (ht : (run cap acts (initSys side fleet)).vs[i]? = some t) (g : Globals) :
    (t.pc = .outRecheck →
      ((vehicle_thread_step cap g t).2.boarded_first = 1 ↔
        g.ferry_side = t.v.current_side ∧ g.current_load + t.v.size ≤ cap) ∧
      t.boarded_first = 0 ∧
      (g.ferry_side = t.v.current_side ∧ g.current_load + t.v.size ≤ cap →
        (vehicle_thread_step cap g t).1.current_load = g.current_load + t.v.size ∧
        (vehicle_thread_step cap g t).1.ferry_side = g.ferry_side ∧
        (vehicle_thread_step cap g t).2.v.current_side = 1 - g.ferry_side)) ∧
    (t.pc = .retRecheck →
      ((vehicle_thread_step cap g t).2.boarded_return = 1 ↔
        g.ferry_side = t.v.current_side ∧ g.current_load + t.v.size ≤ cap) ∧
      t.boarded_return = 0 ∧
      (g.ferry_side = t.v.current_side ∧ g.current_load + t.v.size ≤ cap →
        (vehicle_thread_step cap g t).1.current_load = g.current_load + t.v.size ∧
        (vehicle_thread_step cap g t).1.ferry_side = g.ferry_side ∧
        (vehicle_thread_step cap g t).2.v.current_side = t.v.start_side ∧
        (vehicle_thread_step cap g t).2.v.current_side = 1 - g.ferry_side)) := by
  have hinv := Inv_reach cap hcap side fleet hf acts
  have hv := hinv.threads t (List.getElem?_mem ht)
  obtain ⟨v, pc, d, bf, br⟩ := t
  obtain ⟨_, _, h3⟩ := hv
  constructor
  · intro hpc
    dsimp only at hpc
    subst hpc
    simp only [VInv] at h3
    obtain ⟨h4, h5, h6, h7, h8⟩ := h3
    simp only [vehicle_thread_step, can_board]
    refine ⟨?_, h7, ?_⟩
    · split_ifs with hc
      · simp [hc]
      · dsimp only; rw [h7]; simp [hc]
    · intro hc
      rw [if_pos hc]
      dsimp only
      refine ⟨rfl, rfl, ?_⟩
      rw [h4, hc.1, h8]
  · intro hpc
    dsimp only at hpc
    subst hpc
    simp only [VInv] at h3
    obtain ⟨h4, h5, h6, h7, h8⟩ := h3
    simp only [vehicle_thread_step, can_board]
    refine ⟨?_, h7, ?_⟩
    · split_ifs with hc
      · simp [hc]
      · dsimp only; rw [h7]; simp [hc]
    · intro hc
      rw [if_pos hc]
      dsimp only
      refine ⟨rfl, rfl, h4, ?_⟩
      rw [h4, hc.1, h8]; ring

theorem tryBoard_acceptance_witness :
    (vehicle_thread_step FERRY_CAPACITY ferryLoaded
        { v := mkVehicle MINIBUS_UNIT 1 0, pc := .outRecheck, destination_side := 1,
          boarded_first := 0, boarded_return := 0 }).2.boarded_first = 1 ↔
      ferryLoaded.ferry_side = (mkVehicle MINIBUS_UNIT 1 0).current_side ∧
      ferryLoaded.current_load + (mkVehicle MINIBUS_UNIT 1 0).size ≤ FERRY_CAPACITY :=
  ((tryBoard_acceptance FERRY_CAPACITY (by decide) 0 fleetB (by decide) scheduleRecheck 0
    { v := mkVehicle MINIBUS_UNIT 1 0, pc := .outRecheck, destination_side := 1,
      boarded_first := 0, boarded_return := 0 } (by decide) ferryLoaded).1 rfl).1

/-- C3 (idempotent rejection).  When the docked side differs from the vehicle's
current side or `current_load + size` exceeds the capacity, a boarding attempt
(optimistic check or re-check after the toll, outbound or return) leaves every
global, in particular `current_load` and `ferry_side`, the vehicle record and
both boarded flags unchanged. -/
theorem rejection_idempotent (cap : Int) (g : Globals) (t : VThread)
    (hpc : t.pc = .outTry ∨ t.pc = .outRecheck ∨ t.pc = .retTry ∨ t.pc = .retRecheck)
    (hrej : g.ferry_side ≠ t.v.current_side ∨ g.current_load + t.v.size > cap) :
    (vehicle_thread_step cap g t).1 = g ∧
    (vehicle_thread_step cap g t).1.current_load = g.current_load ∧
    (vehicle_thread_step cap g t).1.ferry_side = g.ferry_side ∧
    (vehicle_thread_step cap g t).2.v = t.v ∧
    (vehicle_thread_step cap g t).2.boarded_first = t.boarded_first ∧
    (vehicle_thread_step cap g t).2.boarded_return = t.boarded_return := by
  have hc : ¬ can_board cap g t.v := by
    unfold can_board
    rcases hrej with h | h
    · exact fun hc => h hc.1
    · exact fun hc => absurd hc.2 (not_le.mpr h)
  obtain ⟨v, pc, d, bf, br⟩ := t
  dsimp only at hpc hc
  rcases hpc with h | h | h | h <;> subst h <;>
    simp only [vehicle_thread_step, hc, if_false, and_self]

theorem rejection_idempotent_witness :
    (vehicle_thread_step 5 ferryLoaded
      { v := mkVehicle MINIBUS_UNIT 3 0, pc := .outRecheck, destination_side := 1,
        boarded_first := 0, boarded_return := 0 }).1.current_load = ferryLoaded.current_load :=
  (rejection_idempotent 5 ferryLoaded
      { v := mkVehicle MINIBUS_UNIT 3 0, pc := .outRecheck, destination_side := 1,
        boarded_first := 0, boarded_return := 0 }
      (Or.inr (Or.inl rfl)) (Or.inr (by decide))).2.1

/-! ## Counting boardings and completions -/

/-- A step of a thread raises the sum of its boarded flags by one exactly when
it changes the load. -/
theorem vstep_flags (cap : Int) (g : Globals) (t : VThread) (h : VInv g.stop_ferry t) :
    ((vehicle_thread_step cap g t).2.boarded_first
        + (vehicle_thread_step cap g t).2.boarded_return
        = t.boarded_first + t.boarded_return ∧
      (vehicle_thread_step cap g t).1.current_load = g.current_load) ∨
    ((vehicle_thread_step cap g t).2.boarded_first
        + (vehicle_thread_step cap g t).2.boarded_return
        = t.boarded_first + t.boarded_return + 1 ∧
      (vehicle_thread_step cap g t).1.current_load ≠ g.current_load) := by
  obtain ⟨v, pc, d, bf, br⟩ := t
  obtain ⟨h1, h2, h3⟩ := h
  cases pc <;> simp only [vehicle_thread_step] <;> simp only [VInv] at h3 <;>
    (try split_ifs) <;> dsimp only at * <;> first | omega | (left; simp; omega) | (left; simp)

/-- A step of a thread sets `returned_home` exactly when it changes
`completed_vehicles`. -/
theorem vstep_credit (cap : Int) (g : Globals) (t : VThread) (h : VInv g.stop_ferry t) :
    ((vehicle_thread_step cap g t).2.v.returned_home = t.v.returned_home ∧
      (vehicle_thread_step cap g t).1.completed_vehicles = g.completed_vehicles) ∨
    ((vehicle_thread_step cap g t).2.v.returned_home = t.v.returned_home + 1 ∧
      (vehicle_thread_step cap g t).1.completed_vehicles ≠ g.completed_vehicles) := by
  obtain ⟨v, pc, d, bf, br⟩ := t
  obtain ⟨h1, h2, h3⟩ := h
  cases pc <;> simp only [vehicle_thread_step] <;> simp only [VInv] at h3 <;>
    (try split_ifs) <;> dsimp only at * <;> first | omega | (left; simp)

theorem flags_of_some (s : Sys) (i : Nat) (t : VThread) (h : s.vs[i]? = some t) :
    flags s i = t.boarded_first + t.boarded_return := by
  simp only [flags, h]

theorem credit_of_some (s : Sys) (i : Nat) (t : VThread) (h : s.vs[i]? = some t) :
    credit s i = t.v.returned_home := by
  simp only [credit, h]

theorem flags_congr (s s1 : Sys) (i : Nat) (h : s1.vs[i]? = s.vs[i]?) :
    flags s1 i = flags s i := by
  simp only [flags, h]

theorem credit_congr (s s1 : Sys) (i : Nat) (h : s1.vs[i]? = s.vs[i]?) :
    credit s1 i = credit s i := by
  simp only [credit, h]

/-- The threads other than the scheduled one are untouched; the controller and
the stop signal touch no thread. -/
theorem sysStep_other (cap : Int) (a : Action) (s : Sys) (i : Nat)
    (h : a ≠ .vehicle i) : (sysStep cap a s).vs[i]? = s.vs[i]? := by
  cases a with
  | vehicle j =>
    have hji : j ≠ i := fun e => h (by rw [e])
    rcases sysStep_vehicle_cases cap j s with ⟨_, he⟩ | ⟨t, _, _, he⟩
    · rw [he]
    · rw [he]; exact List.getElem?_set_ne hji
  | controller b => rfl
  | stop =>
    rcases sysStep_stop_cases cap s with he | ⟨_, he⟩ <;> rw [he]

theorem sysStep_self (cap : Int) (s : Sys) (i : Nat) (t : VThread)
    (hi : s.vs[i]? = some t)
    (he : sysStep cap (.vehicle i) s =
        { s with g := (vehicle_thread_step cap s.g t).1,
                 vs := s.vs.set i (vehicle_thread_step cap s.g t).2 }) :
    (sysStep cap (.vehicle i) s).vs[i]? = some (vehicle_thread_step cap s.g t).2 := by
  rw [he]
  have hlt : i < s.vs.length := by
    by_contra hge
    rw [List.getElem?_eq_none (by omega)] at hi
    exact absurd hi (by simp)
  exact List.getElem?_set_self hlt

theorem boarding_step (cap : Int) (i : Nat) (a : Action) (s : Sys) (h : Inv cap s) :
    (((if is_boarding cap i a s = true then 1 else 0 : Nat)) : Int)
      = flags (sysStep cap a s) i - flags s i := by
  by_cases ha : a = .vehicle i
  · subst ha
    rcases sysStep_vehicle_cases cap i s with ⟨_, he⟩ | ⟨t, hi, _, he⟩
    · simp [is_boarding, he]
    · have hv := h.threads t (List.getElem?_mem hi)
      rw [flags_of_some _ i _ (sysStep_self cap s i t hi he), flags_of_some s i t hi]
      simp only [is_boarding, he, true_and]
      rcases vstep_flags cap s.g t hv with ⟨h1, h2⟩ | ⟨h1, h2⟩
      · simp [h1, h2]
      · simp [h1, h2]
  · rw [flags_congr s _ i (sysStep_other cap a s i ha)]
    simp [is_boarding, ha]

theorem completion_step (cap : Int) (i : Nat) (a : Action) (s : Sys) (h : Inv cap s) :
    (((if is_completion cap i a s = true then 1 else 0 : Nat)) : Int)
      = credit (sysStep cap a s) i - credit s i := by
  by_cases ha : a = .vehicle i
  · subst ha
    rcases sysStep_vehicle_cases cap i s with ⟨_, he⟩ | ⟨t, hi, _, he⟩
    · simp [is_completion, he]
    · have hv := h.threads t (List.getElem?_mem hi)
      rw [credit_of_some _ i _ (sysStep_self cap s i t hi he), credit_of_some s i t hi]
      simp only [is_completion, he, true_and]
      rcases vstep_credit cap s.g t hv with ⟨h1, h2⟩ | ⟨h1, h2⟩
      · simp [h1, h2]
      · simp [h1, h2]
  · rw [credit_congr s _ i (sysStep_other cap a s i ha)]
    simp [is_completion, ha]

/-- A count of steps that is the increment of a state function at every step
telescopes along a run. -/
theorem countSteps_telescope (cap : Int) (hcap : 0 ≤ cap) (p : Action → Sys → Bool)
    (f : Sys → Int)
    (hstep : ∀ a s, Inv cap s →
      (((if p a s = true then 1 else 0 : Nat)) : Int) = f (sysStep cap a s) - f s)
    (acts : List Action) (s : Sys) (h : Inv cap s) :
    ((countSteps cap p acts s : Nat) : Int) = f (run cap acts s) - f s := by
  induction acts generalizing s with
  | nil => simp [countSteps, run]
  | cons a rest ih =>
    simp only [countSteps, run, Nat.cast_add]
    rw [ih _ (Inv_step cap hcap a s h), hstep a s h]
    ring

/-- The boarded flags of a thread add up to 0, 1 or 2, and to 2 once the
vehicle is marked `returned_home`. -/
theorem flags_bounds (cap : Int) (s : Sys) (h : Inv cap s) (i : Nat) :
    0 ≤ flags s i ∧ flags s i ≤ 2 ∧ 0 ≤ credit s i ∧ credit s i ≤ 1 ∧
    (credit s i = 1 → flags s i = 2) := by
  obtain hi | ⟨t, hi⟩ := Option.eq_none_or_eq_some (s.vs[i]?)
  · simp [flags, credit, hi]
  · rw [flags_of_some s i t hi, credit_of_some s i t hi]
    obtain ⟨_, _, h3⟩ := h.threads t (List.getElem?_mem hi)
    obtain ⟨v, pc, d, bf, br⟩ := t
    cases pc <;> simp only [VInv] at h3 <;> dsimp only at * <;> omega

theorem flags_init (side : Int) (fleet : List Vehicle) (hf : ∀ v ∈ fleet, v.fresh)
    (i : Nat) : flags (initSys side fleet) i = 0 ∧ credit (initSys side fleet) i = 0 := by
  obtain hi | ⟨t, hi⟩ := Option.eq_none_or_eq_some ((initSys side fleet).vs[i]?)
  · simp [flags, credit, hi]
  · rw [flags_of_some _ i t hi, credit_of_some _ i t hi]
    have ht := List.getElem?_mem hi
    simp only [initSys, List.mem_map] at ht
    obtain ⟨v, hv, rfl⟩ := ht
    exact ⟨by simp [spawn], (hf v hv).2.2.2.2⟩

/-- C4 (no double boarding).  Along every run from a start state of `main`, the
number of committed boardings of a vehicle (steps of its thread that change
`current_load`) is at most 2 at every point, and it is exactly 2 at every point
at which the vehicle has been given its completion credit (a step of its thread
has changed `completed_vehicles`); the credit is given at most once. -/
theorem no_double_boarding (cap : Int) (hcap : 0 ≤ cap) (side : Int)
    (fleet : List Vehicle) (hf : ∀ v ∈ fleet, v.fresh) (acts : List Action) (i : Nat) :
    boardings cap i acts (initSys side fleet) ≤ 2 ∧
    completions cap i acts (initSys side fleet) ≤ 1 ∧
    (1 ≤ completions cap i acts (initSys side fleet) →
      boardings cap i acts (initSys side fleet) = 2) := by
  have h0 := Inv_init cap hcap side fleet hf
  have hfin := flags_bounds cap _ (Inv_reach cap hcap side fleet hf acts) i
  have hb := countSteps_telescope cap hcap (is_boarding cap i) (fun s => flags s i)
    (fun a s hs => boarding_step cap i a s hs) acts _ h0
  have hc := countSteps_telescope cap hcap (is_completion cap i) (fun s => credit s i)
    (fun a s hs => completion_step cap i a s hs) acts _ h0
  have hi := flags_init side fleet hf i
  simp only [boardings, completions]
  dsimp only at hb hc
  rw [hi.1] at hb
  rw [hi.2] at hc
  omega

theorem no_double_boarding_witness :
    boardings FERRY_CAPACITY 0 scheduleRound (initSys 0 fleetA) = 2 ∧
    completions FERRY_CAPACITY 0 scheduleRound (initSys 0 fleetA) = 1 :=
  ⟨(no_double_boarding FERRY_CAPACITY (by decide) 0 fleetA (by decide) scheduleRound 0).2.2
      (by decide),
   by decide⟩

/-! ## Sides -/

/-- A thread changes its vehicle's current side only in a step whose boarding
condition holds. -/
theorem vstep_cur (cap : Int) (g : Globals) (t : VThread) :
    (vehicle_thread_step cap g t).2.v.current_side = t.v.current_side ∨
    can_board cap g t.v := by
  obtain ⟨v, pc, d, bf, br⟩ := t
  cases pc <;> simp only [vehicle_thread_step] <;> (try split_ifs) <;> simp_all

/-- A committed boarding puts the vehicle on the side opposite to the dock. -/
theorem vstep_commit_side (cap : Int) (g : Globals) (t : VThread)
    (h : VInv g.stop_ferry t)
    (hl : (vehicle_thread_step cap g t).1.current_load ≠ g.current_load) :
    (vehicle_thread_step cap g t).2.v.current_side = 1 - g.ferry_side := by
  obtain ⟨v, pc, d, bf, br⟩ := t
  obtain ⟨h1, h2, h3⟩ := h
  cases pc <;> simp only [vehicle_thread_step] at hl ⊢ <;> simp only [VInv] at h3 <;>
    (try split_ifs at hl ⊢) <;> (try simp only [can_board] at *) <;> omega

theorem curSide_of_some (s : Sys) (i : Nat) (t : VThread) (h : s.vs[i]? = some t) :
    curSide s i = some t.v.current_side := by
  simp only [curSide, h]

theorem curSide_congr (s s1 : Sys) (i : Nat) (h : s1.vs[i]? = s.vs[i]?) :
    curSide s1 i = curSide s i := by
  simp only [curSide, h]

theorem curSide_some (s : Sys) (i : Nat) (c : Int) (h : curSide s i = some c) :
    ∃ t, s.vs[i]? = some t ∧ t.v.current_side = c := by
  obtain hi | ⟨t, hi⟩ := Option.eq_none_or_eq_some (s.vs[i]?)
  · simp [curSide, hi] at h
  · rw [curSide_of_some s i t hi] at h
    exact ⟨t, hi, Option.some.inj h⟩

/-- The docked side changes only in a controller step that is a departure, and
a departure flips the side and empties the ferry. -/
theorem side_change_is_departure (cap : Int) (a : Action) (s : Sys) :
    ((sysStep cap a s).g.ferry_side ≠ s.g.ferry_side ∨ is_departure cap a s = true) →
    (∃ b, a = .controller b) ∧ is_departure cap a s = true ∧
    (sysStep cap a s).g.ferry_side = 1 - s.g.ferry_side ∧
    (sysStep cap a s).g.current_load = 0 ∧
    (sysStep cap a s).vs = s.vs := by
  intro h
  cases a with
  | vehicle i =>
    exfalso
    rcases sysStep_vehicle_cases cap i s with ⟨_, he⟩ | ⟨t, _, _, he⟩
    · simp [is_departure, he] at h
    · simp [is_departure, he, vstep_side, vstep_departures] at h
  | controller b =>
    rcases fstep_globals cap b s.g s.ctrl with h1 | h1
    · exfalso; simp [is_departure, sysStep, h1] at h
    · exact ⟨⟨b, rfl⟩, by simp [is_departure, sysStep, h1], by simp [sysStep, h1],
        by simp [sysStep, h1], rfl⟩
  | stop =>
    exfalso
    rcases sysStep_stop_cases cap s with he | ⟨_, he⟩ <;> simp [is_departure, he] at h

/-- While vehicle `i` stands recorded on the side opposite to the dock, every
step that is not a departure keeps both the dock and the record. -/
theorem opposite_step (cap : Int) (i : Nat) (c : Int) (a : Action) (s : Sys)
    (hc : curSide s i = some c) (hs : s.g.ferry_side = 1 - c)
    (hd : is_departure cap a s = false) :
    curSide (sysStep cap a s) i = some c ∧ (sysStep cap a s).g.ferry_side = 1 - c := by
  have hside : (sysStep cap a s).g.ferry_side = s.g.ferry_side := by
    by_contra hne
    have := (side_change_is_departure cap a s (Or.inl hne)).2.1
    rw [hd] at this
    exact absurd this (by simp)
  refine ⟨?_, by rw [hside, hs]⟩
  by_cases ha : a = .vehicle i
  · subst ha
    rcases sysStep_vehicle_cases cap i s with ⟨_, he⟩ | ⟨t, hi, _, he⟩
    · rw [he]; exact hc
    · rw [curSide_of_some _ i _ (sysStep_self cap s i t hi he)]
      rw [curSide_of_some s i t hi] at hc
      have hc1 : t.v.current_side = c := Option.some.inj hc
      rcases vstep_cur cap s.g t with h1 | h1
      · rw [h1, hc1]
      · exfalso
        have := h1.1
        omega
  · rw [curSide_congr s _ i (sysStep_other cap a s i ha)]; exact hc

theorem opposite_run (cap : Int) (i : Nat) (c : Int) (acts : List Action) (s : Sys)
    (hc : curSide s i = some c) (hs : s.g.ferry_side = 1 - c)
    (hd : departures cap acts s = 0) :
    curSide (run cap acts s) i = some c ∧ (run cap acts s).g.ferry_side = 1 - c := by
  induction acts generalizing s with
  | nil => exact ⟨hc, hs⟩
  | cons a rest ih =>
    simp only [departures, countSteps] at hd
    have hda : is_departure cap a s = false := by
      by_contra hne
      simp only [Bool.not_eq_false] at hne
      rw [if_pos hne] at hd
      omega
    obtain ⟨h1, h2⟩ := opposite_step cap i c a s hc hs hda
    exact ih _ h1 h2 (by rw [hda] at hd; simpa [departures] using hd)

/-- C5 (side consistency).  Let vehicle `i` commit a boarding in a reachable
state `s0`, giving `s1`.  Then in `s1` the vehicle's recorded current side `c`
is `1 - ferry_side`, so it differs from the docked side, which the commit did
not move.  Along every continuation without a departure the docked side and the
record stay as they are, and the next departure docks the ferry at `c` with the
record still `c` and the load reset to 0.  In any state whatever, a step that
changes the docked side is a controller step that is a departure, flips the side
to `1 - ferry_side` and empties the ferry. -/
theorem side_consistency (cap : Int) (hcap : 0 ≤ cap) (side : Int)
    (fleet : List Vehicle) (hf : ∀ v ∈ fleet, v.fresh) (acts0 : List Action) (i : Nat)
    (s0 s1 : Sys) (hs0 : s0 = run cap acts0 (initSys side fleet))
    (hs1 : s1 = sysStep cap (.vehicle i) s0)
    (hcommit : is_boarding cap i (.vehicle i) s0 = true) :
    (∃ c : Int,
      curSide s1 i = some c ∧ s1.g.ferry_side = s0.g.ferry_side ∧
      c = 1 - s1.g.ferry_side ∧ c ≠ s1.g.ferry_side ∧
      ∀ acts : List Action, departures cap acts s1 = 0 →
        (run cap acts s1).g.ferry_side = s1.g.ferry_side ∧
        curSide (run cap acts s1) i = some c ∧
        ∀ a : Action, is_departure cap a (run cap acts s1) = true →
          (sysStep cap a (run cap acts s1)).g.ferry_side = c ∧
          curSide (sysStep cap a (run cap acts s1)) i = some c ∧
          (sysStep cap a (run cap acts s1)).g.current_load = 0) ∧
    (∀ (s : Sys) (a : Action), (sysStep cap a s).g.ferry_side ≠ s.g.ferry_side →
      (∃ b, a = .controller b) ∧ is_departure cap a s = true ∧
      (sysStep cap a s).g.ferry_side = 1 - s.g.ferry_side ∧
      (sysStep cap a s).g.current_load = 0) := by
  have hinv : Inv cap s0 := by rw [hs0]; exact Inv_reach cap hcap side fleet hf acts0
  refine ⟨?_, fun s a h => ?_⟩
  · simp only [is_boarding, true_and, decide_eq_true_eq] at hcommit
    rcases sysStep_vehicle_cases cap i s0 with ⟨_, he⟩ | ⟨t, hi, _, he⟩
    · rw [he] at hcommit; exact absurd rfl hcommit
    · have hv := hinv.threads t (List.getElem?_mem hi)
      have hself := sysStep_self cap s0 i t hi he
      rw [he] at hcommit
      dsimp only at hcommit
      have hc1 := vstep_commit_side cap s0.g t hv hcommit
      have hsd : s1.g.ferry_side = s0.g.ferry_side := by
        rw [hs1, he]; exact vstep_side cap s0.g t
      have hcur : curSide s1 i = some (vehicle_thread_step cap s0.g t).2.v.current_side := by
        rw [hs1]; exact curSide_of_some _ i _ hself
      refine ⟨_, hcur, hsd, by rw [hc1, hsd], by rw [hc1, hsd]; omega, ?_⟩
      intro acts hd
      have hopp : s1.g.ferry_side = 1 - (vehicle_thread_step cap s0.g t).2.v.current_side := by
        rw [hc1, hsd]; ring
      obtain ⟨h1, h2⟩ := opposite_run cap i _ acts s1 hcur hopp hd
      refine ⟨by rw [h2, hopp], h1, ?_⟩
      intro a ha
      obtain ⟨_, _, h3, h4, h5⟩ := side_change_is_departure cap a _ (Or.inr ha)
      refine ⟨by rw [h3, h2]; ring, ?_, h4⟩
      rw [curSide_congr (run cap acts s1) _ i (by rw [h5])]
      exact h1
  · obtain ⟨h1, h2, h3, h4, _⟩ := side_change_is_departure cap a s (Or.inl h)
    exact ⟨h1, h2, h3, h4⟩

theorem side_consistency_witness :
    ∃ c : Int,
      curSide (sysStep FERRY_CAPACITY (.vehicle 0)
        (run FERRY_CAPACITY (vehicleSteps 3) (initSys 0 fleetA))) 0 = some c ∧
      c ≠ (sysStep FERRY_CAPACITY (.vehicle 0)
        (run FERRY_CAPACITY (vehicleSteps 3) (initSys 0 fleetA))).g.ferry_side := by
  obtain ⟨c, h1, _, _, h4, _⟩ :=
    (side_consistency FERRY_CAPACITY (by decide) 0 fleetA (by decide) (vehicleSteps 3) 0
      _ _ rfl rfl (by decide)).1
  exact ⟨c, h1, h4⟩

/-! ## Stop signal and completion -/

/-- Once `stop_ferry` is set, a thread that has not yet entered the return
arrival loop never enters it: its steps leave `completed_vehicles` and the
vehicle's `returned_home` alone and keep it away from `retArrive` and
`complete`.  The stop tests of lines 430 and 501 end it. -/
theorem stop_before_return_arrival (cap : Int) (g : Globals) (t : VThread)
    (hstop : g.stop_ferry ≠ 0) (h1 : t.pc ≠ .retArrive) (h2 : t.pc ≠ .complete) :
    (vehicle_thread_step cap g t).1.completed_vehicles = g.completed_vehicles ∧
    (vehicle_thread_step cap g t).2.v.returned_home = t.v.returned_home ∧
    (vehicle_thread_step cap g t).2.pc ≠ .retArrive ∧
    (vehicle_thread_step cap g t).2.pc ≠ .complete ∧
    (t.pc = .outStop ∨ t.pc = .retStop →
      (vehicle_thread_step cap g t).2.pc = .done ∧
      (vehicle_thread_step cap g t).1.active_threads = g.active_threads - 1) := by
  obtain ⟨v, pc, d, bf, br⟩ := t
  cases pc <;> simp only [vehicle_thread_step] <;> (try split_ifs) <;> simp_all

/-- C7 (completion step).  The completion step of a vehicle thread (lines
522-527, one critical section of `count_mutex`) adds exactly 1 to
`completed_vehicles`, subtracts exactly 1 from `active_threads`, and marks the
vehicle itself by setting its `returned_home` to 1; `current_load`,
`ferry_side`, `total_departures` and `stop_ferry` are unchanged (the one other
global written is the counter `vehicles_at_start`), the rest of the vehicle
record is unchanged, and the thread ends.  Whenever a thread of a reachable
state stands at this step, the return trip is done: both boardings are
committed, the vehicle is recorded at its home side and not yet marked. -/
theorem completion_step_effect (cap : Int) (g : Globals) (t : VThread)
    (hpc : t.pc = .complete) :
    ((vehicle_thread_step cap g t).1 =
      { g with completed_vehicles := g.completed_vehicles + 1,
               active_threads := g.active_threads - 1,
               vehicles_at_start := g.vehicles_at_start - 1 } ∧
     (vehicle_thread_step cap g t).1.completed_vehicles = g.completed_vehicles + 1 ∧
     (vehicle_thread_step cap g t).1.active_threads = g.active_threads - 1 ∧
     (vehicle_thread_step cap g t).1.current_load = g.current_load ∧
     (vehicle_thread_step cap g t).1.ferry_side = g.ferry_side ∧
     (vehicle_thread_step cap g t).1.total_departures = g.total_departures ∧
     (vehicle_thread_step cap g t).1.stop_ferry = g.stop_ferry ∧
     (vehicle_thread_step cap g t).2.v = { t.v with returned_home := 1 } ∧
     (vehicle_thread_step cap g t).2.v.returned_home = 1 ∧
     (vehicle_thread_step cap g t).2.pc = .done) ∧
    (∀ (side : Int) (fleet : List Vehicle) (acts : List Action) (i : Nat),
      0 ≤ cap → (∀ v ∈ fleet, v.fresh) →
      (run cap acts (initSys side fleet)).vs[i]? = some t →
      t.boarded_first = 1 ∧ t.boarded_return = 1 ∧
      t.v.current_side = t.v.start_side ∧ t.v.returned_home = 0) := by
  constructor
  · obtain ⟨v, pc, d, bf, br⟩ := t
    dsimp only at hpc
    subst hpc
    simp only [vehicle_thread_step, and_self]
  · intro side fleet acts i hcap hf ht
    have hv := (Inv_reach cap hcap side fleet hf acts).threads t (List.getElem?_mem ht)
    obtain ⟨v, pc, d, bf, br⟩ := t
    dsimp only at hpc
    subst hpc
    obtain ⟨_, _, h3⟩ := hv
    simp only [VInv] at h3
    exact ⟨h3.2.1, h3.2.2.1, h3.2.2.2, h3.1⟩

theorem completion_step_effect_witness :
    (vehicle_thread_step FERRY_CAPACITY
      { ferry_side := 0, current_load := 0, completed_vehicles := 0, active_threads := 1,
        stop_ferry := 0, total_departures := 2, vehicles_at_start := 30 }
      { v := mkVehicle CAR_UNIT 1 0, pc := .complete, destination_side := 0,
        boarded_first := 1, boarded_return := 1 }).1.completed_vehicles = 0 + 1 :=
  (completion_step_effect FERRY_CAPACITY
      { ferry_side := 0, current_load := 0, completed_vehicles := 0, active_threads := 1,
        stop_ferry := 0, total_departures := 2, vehicles_at_start := 30 }
      { v := mkVehicle CAR_UNIT 1 0, pc := .complete, destination_side := 0,
        boarded_first := 1, boarded_return := 1 } rfl).1.2.1

/-! ## Departure policy -/

/-- The decision of the two controller steps of one cycle is `should_depart`:
from `check` with the loop continuing, the controller departs at once when
`should_depart` is 1 for every re-read load, and otherwise moves on (to the
re-poll when the load is positive); from `repoll` it departs exactly when the
re-poll condition of line 343 holds. -/
theorem should_depart_steps (cap : Int) (b : Bool) (g : Globals) (c : Ctrl) :
    (c.pc = .check → ¬ (g.stop_ferry ≠ 0 ∨ g.completed_vehicles ≥ TOTAL_VEHICLES) →
      ((g.current_load = 0 ∧ c.empty_ferry_cycles ≥ 1) ∨ g.current_load ≥ cap →
        ferry_manager_step cap b g c = depart g { c with wait_cycles := c.wait_cycles + 1 } ∧
        ∀ reload, should_depart cap g.current_load c.empty_ferry_cycles c.wait_cycles reload = 1) ∧
      (¬ ((g.current_load = 0 ∧ c.empty_ferry_cycles ≥ 1) ∨ g.current_load ≥ cap) →
        (ferry_manager_step cap b g c).1 = g ∧
        (ferry_manager_step cap b g c).2.wait_cycles = c.wait_cycles + 1 ∧
        (ferry_manager_step cap b g c).2.pc = (if g.current_load > 0 then .repoll else .top) ∧
        (g.current_load ≤ 0 → ∀ reload,
          should_depart cap g.current_load c.empty_ferry_cycles c.wait_cycles reload = 0))) ∧
    (c.pc = .repoll → ∀ load empty wait, 0 < load → load < cap → wait + 1 = c.wait_cycles →
      (should_depart cap load empty wait g.current_load = 1 →
        ferry_manager_step cap b g c = depart g c) ∧
      (should_depart cap load empty wait g.current_load ≠ 1 →
        ferry_manager_step cap b g c = (g, { c with pc := .top }))) := by
  obtain ⟨pc, w, e, m⟩ := c
  constructor
  · intro hpc hgo
    dsimp only at hpc
    subst hpc
    simp only [ferry_manager_step, if_neg hgo, should_depart]
    constructor
    · intro h
      rcases h with h | h
      · simp [h]
      · by_cases h0 : g.current_load = 0 ∧ e ≥ 1
        · simp [h0]
        · simp [h0, h]
    · intro h
      have h1 : ¬ (g.current_load = 0 ∧ e ≥ 1) := fun x => h (Or.inl x)
      have h2 : ¬ (g.current_load ≥ cap) := fun x => h (Or.inr x)
      simp only [if_neg h1, if_neg h2]
      refine ⟨?_, ?_, ?_, ?_⟩
      · split_ifs <;> rfl
      · split_ifs <;> rfl
      · split_ifs <;> rfl
      · intro h3 reload
        have h4 : ¬ (g.current_load > 0) := not_lt.mpr h3
        simp [h4]
  · intro hpc load empty wait hl hc hw
    dsimp only at hpc hw
    subst hpc
    have h1 : ¬ (load = 0 ∧ empty ≥ 1) := fun x => by omega
    have h2 : ¬ (load ≥ cap) := not_le.mpr hc
    simp only [ferry_manager_step, should_depart, if_neg h1, if_neg h2, if_pos hl, hw]
    constructor
    · intro h
      split_ifs at h ⊢ with h5
      · rfl
      · exact absurd h (by decide)
    · intro h
      split_ifs at h ⊢ with h5
      · exact absurd rfl h
      · rfl

/-- C9 (departure policy).  For every load, timeout count, wait-cycle count and
re-read load, `should_depart` as the code computes it (empty-timeout test
first, then full, then partial with the re-poll) is 1 exactly when the policy of
the specification (full first, then empty-timeout, then partial: depart iff the
wait-cycle count of this cycle has reached 3 or the re-read load has reached
15) says depart; the high-watermark 15 is below the capacity 20. -/
theorem departure_policy (load empty wait reload : Int) :
    (should_depart FERRY_CAPACITY load empty wait reload = 1 ↔
      should_depart_spec FERRY_CAPACITY load empty (wait + 1) reload = true) ∧
    (should_depart FERRY_CAPACITY load empty wait reload = 0 ↔
      should_depart_spec FERRY_CAPACITY load empty (wait + 1) reload = false) ∧
    (15 : Int) < FERRY_CAPACITY := by
  have hcap : FERRY_CAPACITY = 20 := rfl
  simp only [should_depart, should_depart_spec, hcap]
  refine ⟨?_, ?_, by decide⟩
  · split_ifs <;> simp <;> omega
  · split_ifs <;> simp <;> omega

/-! ## Bounded partial wait -/

/-- A controller step that is not a departure leaves the load alone and adds 1
to `wait_cycles` exactly when it is a departure decision. -/
theorem fstep_wait (cap : Int) (b : Bool) (g : Globals) (c : Ctrl) (hc : CInv g c)
    (hd : (ferry_manager_step cap b g c).1.total_departures = g.total_departures) :
    (ferry_manager_step cap b g c).2.wait_cycles
      = c.wait_cycles +
        (if c.pc = .check ∧ g.stop_ferry = 0 ∧ g.completed_vehicles < TOTAL_VEHICLES
          then 1 else 0) ∧
    (ferry_manager_step cap b g c).1.current_load = g.current_load := by
  obtain ⟨pc, w, e, m⟩ := c
  obtain ⟨h1, h2, h3⟩ := hc
  cases pc <;> simp only [ferry_manager_step, depart] at hd ⊢ <;>
    simp only [CInv] at h3 <;> (try split_ifs at hd ⊢) <;> (try dsimp only at *) <;>
    (try simp only [reduceCtorEq, false_and, true_and, if_false] at *) <;>
    first | omega | (refine ⟨?_, ?_⟩ <;> first | trivial | omega)

theorem wait_step (cap : Int) (a : Action) (s : Sys) (h : Inv cap s)
    (hl : 0 < s.g.current_load) (hd : is_departure cap a s = false) :
    (sysStep cap a s).ctrl.wait_cycles
      = s.ctrl.wait_cycles + ((if is_decision a s = true then 1 else 0 : Nat) : Int) ∧
    0 < (sysStep cap a s).g.current_load := by
  simp only [is_departure, decide_eq_false_iff_not, not_not] at hd
  cases a with
  | vehicle i =>
    rcases sysStep_vehicle_cases cap i s with ⟨_, he⟩ | ⟨t, hi, _, he⟩
    · rw [he]; simp [is_decision, hl]
    · have hv := (h.threads t (List.getElem?_mem hi)).1
      rw [he]
      refine ⟨by simp [is_decision], ?_⟩
      dsimp only
      rcases vstep_load cap s.g t with h1 | ⟨_, _, h1⟩ <;> omega
  | controller b =>
    obtain ⟨h1, h2⟩ := fstep_wait cap b s.g s.ctrl h.ctrl hd
    simp only [sysStep, is_decision]
    refine ⟨?_, by rw [h2]; exact hl⟩
    rw [h1]
    by_cases hcnd : s.ctrl.pc = .check ∧ s.g.stop_ferry = 0 ∧
        s.g.completed_vehicles < TOTAL_VEHICLES
    · rw [if_pos hcnd, if_pos (decide_eq_true hcnd)]; rfl
    · rw [if_neg hcnd, if_neg (fun hx => hcnd (of_decide_eq_true hx))]; rfl
  | stop =>
    rcases sysStep_stop_cases cap s with he | ⟨_, he⟩ <;> rw [he] <;>
      simp [is_decision, hl]

theorem wait_run (cap : Int) (hcap : 0 ≤ cap) (acts : List Action) (s : Sys)
    (h : Inv cap s) (hl : 0 < s.g.current_load) (hd : departures cap acts s = 0) :
    (run cap acts s).ctrl.wait_cycles = s.ctrl.wait_cycles + (decisions cap acts s : Nat) ∧
    0 < (run cap acts s).g.current_load := by
  induction acts generalizing s with
  | nil => simp [run, decisions, countSteps, hl]
  | cons a rest ih =>
    simp only [departures, countSteps] at hd
    have hda : is_departure cap a s = false := by
      by_contra hne
      simp only [Bool.not_eq_false] at hne
      rw [if_pos hne] at hd
      omega
    obtain ⟨h1, h2⟩ := wait_step cap a s h hl hda
    obtain ⟨h3, h4⟩ := ih _ (Inv_step cap hcap a s h) h2
      (by rw [hda] at hd; simpa [departures] using hd)
    refine ⟨?_, h4⟩
    simp only [run, decisions, countSteps, Nat.cast_add]
    simp only [decisions] at h3
    rw [h3, h1]
    ring

/-- What the controller does at a departure decision and at the re-poll, in a
state that satisfies the invariant. -/
theorem decision_cases (cap : Int) (b : Bool) (g : Globals) (c : Ctrl)
    (hl : 0 ≤ g.current_load) (hc : CInv g c) :
    (c.pc = .check → g.stop_ferry = 0 → g.completed_vehicles < TOTAL_VEHICLES →
      (ferry_manager_step cap b g c
          = depart g { c with wait_cycles := c.wait_cycles + 1 } ∨
        (ferry_manager_step cap b g c
            = (g, { c with wait_cycles := c.wait_cycles + 1, pc := .repoll }) ∧
          0 < g.current_load ∧ g.current_load < cap)) ∧
      (g.current_load = 0 →
        ferry_manager_step cap b g c
          = depart g { c with wait_cycles := c.wait_cycles + 1 })) ∧
    (c.pc = .repoll →
      (ferry_manager_step cap b g c = depart g c ∨
        (ferry_manager_step cap b g c = (g, { c with pc := .top }) ∧
          c.wait_cycles ≤ 2 ∧ 0 < g.current_load ∧ g.current_load < 15)) ∧
      (c.wait_cycles = 3 → ferry_manager_step cap b g c = depart g c)) := by
  obtain ⟨pc, w, e, m⟩ := c
  obtain ⟨h1, h2, h3⟩ := hc
  constructor
  · intro hpc hs hcv
    dsimp only at hpc
    subst hpc
    simp only [CInv] at h3
    have hgo : ¬ (g.stop_ferry ≠ 0 ∨ g.completed_vehicles ≥ TOTAL_VEHICLES) := by
      intro hx
      rcases hx with hx | hx
      · exact hx hs
      · exact absurd hcv (not_lt.mpr hx)
    simp only [ferry_manager_step, if_neg hgo]
    constructor
    · by_cases hA : g.current_load = 0 ∧ e ≥ 1
      · left; rw [if_pos hA]
      · rw [if_neg hA]
        by_cases hB : g.current_load ≥ cap
        · left; rw [if_pos hB]
        · rw [if_neg hB]
          have hpos : g.current_load > 0 := by omega
          right
          rw [if_pos hpos]
          exact ⟨rfl, hpos, not_le.mp hB⟩
    · intro h0
      have hA : g.current_load = 0 ∧ e ≥ 1 := by omega
      rw [if_pos hA]
  · intro hpc
    dsimp only at hpc
    subst hpc
    simp only [CInv] at h3
    simp only [ferry_manager_step]
    constructor
    · by_cases hA : g.current_load ≥ 15 ∨ w ≥ 3
      · left; rw [if_pos hA]
      · right
        rw [if_neg hA]
        refine ⟨rfl, ?_, ?_, ?_⟩ <;> omega
    · intro h3w
      rw [if_pos (Or.inr (by omega))]

/-- Bounds on `wait_cycles` that follow from the controller invariant. -/
theorem ctrl_bounds (g : Globals) (c : Ctrl) (hc : CInv g c) :
    0 ≤ c.wait_cycles ∧ c.wait_cycles ≤ 3 ∧
    (c.pc = .check → c.wait_cycles + 1 ≤ 3) ∧
    (c.wait_cycles = 3 → c.pc = .repoll) := by
  obtain ⟨pc, w, e, m⟩ := c
  obtain ⟨h1, h2, h3⟩ := hc
  cases pc <;> simp only [CInv] at h3 <;> dsimp only at h1 h2 ⊢ <;>
    refine ⟨h2, by omega, fun hx => ?_, fun hx => ?_⟩ <;>
    first | rfl | omega | exact absurd hx (by decide)

/-- C10 (bounded partial wait).  In every reachable state `s` of the program
run with `FERRY_CAPACITY`: `wait_cycles` is between 0 and 3, and at most 2 when
a decision is about to increment it.  A departure decision (controller at
`check`, no stop, not all completed) either departs, which resets `wait_cycles`
and `empty_ferry_cycles` to 0, or goes to the re-poll with a load strictly
between 0 and the capacity; with load 0 it always departs.  The re-poll either
departs or leaves `wait_cycles ≤ 2` with `0 < current_load < 15`, and departs
when `wait_cycles` is 3.  Along every continuation without a departure from a
positive load, `wait_cycles` grows by exactly the number of decisions taken, so
at most three decisions are taken, the load stays positive, and once
`wait_cycles` is 3 the controller stands at the re-poll, whose step departs. -/
theorem bounded_partial_wait (side : Int) (fleet : List Vehicle)
    (hf : ∀ v ∈ fleet, v.fresh) (acts : List Action) (s : Sys)
    (hs : s = run FERRY_CAPACITY acts (initSys side fleet)) (b : Bool) :
    (0 ≤ s.ctrl.wait_cycles ∧ s.ctrl.wait_cycles ≤ 3 ∧
      (s.ctrl.pc = .check → s.ctrl.wait_cycles + 1 ≤ 3)) ∧
    (s.ctrl.pc = .check → s.g.stop_ferry = 0 → s.g.completed_vehicles < TOTAL_VEHICLES →
      (ferry_manager_step FERRY_CAPACITY b s.g s.ctrl
          = depart s.g { s.ctrl with wait_cycles := s.ctrl.wait_cycles + 1 } ∨
        (ferry_manager_step FERRY_CAPACITY b s.g s.ctrl
            = (s.g, { s.ctrl with wait_cycles := s.ctrl.wait_cycles + 1, pc := .repoll }) ∧
          0 < s.g.current_load ∧ s.g.current_load < FERRY_CAPACITY)) ∧
      (s.g.current_load = 0 →
        ferry_manager_step FERRY_CAPACITY b s.g s.ctrl
          = depart s.g { s.ctrl with wait_cycles := s.ctrl.wait_cycles + 1 })) ∧
    (s.ctrl.pc = .repoll →
      (ferry_manager_step FERRY_CAPACITY b s.g s.ctrl = depart s.g s.ctrl ∨
        (ferry_manager_step FERRY_CAPACITY b s.g s.ctrl = (s.g, { s.ctrl with pc := .top }) ∧
          s.ctrl.wait_cycles ≤ 2 ∧ 0 < s.g.current_load ∧ s.g.current_load < 15)) ∧
      (s.ctrl.wait_cycles = 3 →
        ferry_manager_step FERRY_CAPACITY b s.g s.ctrl = depart s.g s.ctrl)) ∧
    (∀ (g : Globals) (c : Ctrl),
      (depart g c).2.wait_cycles = 0 ∧ (depart g c).2.empty_ferry_cycles = 0 ∧
      (depart g c).2.pc = .top ∧ (depart g c).1.current_load = 0 ∧
      (depart g c).1.ferry_side = 1 - g.ferry_side ∧
      (depart g c).1.total_departures = g.total_departures + 1) ∧
    (∀ acts2 : List Action, 0 < s.g.current_load →
      departures FERRY_CAPACITY acts2 s = 0 →
      (run FERRY_CAPACITY acts2 s).ctrl.wait_cycles
        = s.ctrl.wait_cycles + (decisions FERRY_CAPACITY acts2 s : Nat) ∧
      decisions FERRY_CAPACITY acts2 s ≤ 3 ∧
      0 < (run FERRY_CAPACITY acts2 s).g.current_load ∧
      ((run FERRY_CAPACITY acts2 s).ctrl.wait_cycles = 3 →
        (run FERRY_CAPACITY acts2 s).ctrl.pc = .repoll ∧
        ferry_manager_step FERRY_CAPACITY b (run FERRY_CAPACITY acts2 s).g
            (run FERRY_CAPACITY acts2 s).ctrl
          = depart (run FERRY_CAPACITY acts2 s).g (run FERRY_CAPACITY acts2 s).ctrl)) := by
  have hcap : (0 : Int) ≤ FERRY_CAPACITY := by decide
  have hinv : Inv FERRY_CAPACITY s := by rw [hs]; exact Inv_reach _ hcap side fleet hf acts
  have hdc := decision_cases FERRY_CAPACITY b s.g s.ctrl hinv.load_nonneg hinv.ctrl
  have hbound : ∀ s1 : Sys, Inv FERRY_CAPACITY s1 →
      0 ≤ s1.ctrl.wait_cycles ∧ s1.ctrl.wait_cycles ≤ 3 ∧
      (s1.ctrl.pc = .check → s1.ctrl.wait_cycles + 1 ≤ 3) ∧
      (s1.ctrl.wait_cycles = 3 → s1.ctrl.pc = .repoll) :=
    fun s1 h1 => ctrl_bounds s1.g s1.ctrl h1.ctrl
  obtain ⟨hb1, hb2, hb3, _⟩ := hbound s hinv
  refine ⟨⟨hb1, hb2, hb3⟩, hdc.1, hdc.2, fun g c => ?_, ?_⟩
  · simp [depart]
  · intro acts2 hl hd
    obtain ⟨h1, h2⟩ := wait_run FERRY_CAPACITY hcap acts2 s hinv hl hd
    have hinv2 := Inv_run FERRY_CAPACITY hcap acts2 s hinv
    obtain ⟨hc1, hc2, _, hc4⟩ := hbound _ hinv2
    refine ⟨h1, by omega, h2, fun h3 => ⟨hc4 h3, ?_⟩⟩
    exact (decision_cases FERRY_CAPACITY b _ _ hinv2.load_nonneg hinv2.ctrl).2 (hc4 h3) |>.2 h3

theorem bounded_partial_wait_witness :
    ferry_manager_step FERRY_CAPACITY false
        (run FERRY_CAPACITY scheduleDecision (initSys 0 fleetA)).g
        (run FERRY_CAPACITY scheduleDecision (initSys 0 fleetA)).ctrl
      = depart (run FERRY_CAPACITY scheduleDecision (initSys 0 fleetA)).g
          { (run FERRY_CAPACITY scheduleDecision (initSys 0 fleetA)).ctrl with
            wait_cycles :=
              (run FERRY_CAPACITY scheduleDecision (initSys 0 fleetA)).ctrl.wait_cycles + 1 } ∨
    (ferry_manager_step FERRY_CAPACITY false
        (run FERRY_CAPACITY scheduleDecision (initSys 0 fleetA)).g
        (run FERRY_CAPACITY scheduleDecision (initSys 0 fleetA)).ctrl
      = ((run FERRY_CAPACITY scheduleDecision (initSys 0 fleetA)).g,
          { (run FERRY_CAPACITY scheduleDecision (initSys 0 fleetA)).ctrl with
            wait_cycles :=
              (run FERRY_CAPACITY scheduleDecision (initSys 0 fleetA)).ctrl.wait_cycles + 1,
            pc := .repoll }) ∧
      0 < (run FERRY_CAPACITY scheduleDecision (initSys 0 fleetA)).g.current_load ∧
      (run FERRY_CAPACITY scheduleDecision (initSys 0 fleetA)).g.current_load
        < FERRY_CAPACITY) :=
  ((bounded_partial_wait 0 fleetA (by decide) scheduleDecision _ rfl false).2.1
    (by decide) (by decide) (by decide)).1

/-! ## Termination -/

theorem run_append (cap : Int) (l1 l2 : List Action) (s : Sys) :
    run cap (l1 ++ l2) s = run cap l2 (run cap l1 s) := by
  induction l1 generalizing s with
  | nil => rfl
  | cons a rest ih => exact ih (sysStep cap a s)

theorem run_firstSteps_succ (cap : Int) (f : Nat → Action) (n : Nat) (s : Sys) :
    run cap (firstSteps f (n + 1)) s = sysStep cap (f n) (run cap (firstSteps f n) s) := by
  simp only [firstSteps, List.range_succ, List.map_append, List.map_cons, List.map_nil,
    run_append, run]

theorem starvePhase_succ (n : Nat) : starvePhase (n + 1) = starveNext (starvePhase n) := by
  simp only [starvePhase, starveNext]
  split_ifs <;> omega

theorem starvePhase_lt (n : Nat) : starvePhase n < 16 := by
  simp only [starvePhase]
  split_ifs <;> omega

/-- One step of `starve` takes the state of a position to the state of the next
position, and changes the state. -/
theorem starved_step (p : Nat) (hp : p < 16) (s : Sys) (h : Starved p s) :
    Starved (starveNext p) (sysStep FERRY_CAPACITY (starveAction p) s) ∧
    sysStep FERRY_CAPACITY (starveAction p) s ≠ s := by
  obtain ⟨⟨side, load, comp, act, stop, deps, vas⟩, ⟨cpc, w, e, m⟩, vs⟩ := s
  obtain ⟨h1, h2, h3, h4, h5, h6, h7, h8⟩ := h
  dsimp only at h1 h2 h3 h4 h5 h6 h7 h8
  subst h1 h2 h3 h4 h5 h6 h7 h8
  interval_cases p <;>
    simp [Starved, starveNext, starveAction, starveCtrl, starveCar, sysStep,
      ferry_manager_step, vehicle_thread_step, depart, awaiting_load, can_board,
      needs_ferry_mutex, mkVehicle, CAR_UNIT, FERRY_CAPACITY, TOTAL_VEHICLES, TOTAL_CARS,
      TOTAL_MINIBUSES, TOTAL_TRUCKS]

theorem starved_at (n : Nat) :
    Starved (starvePhase n) (run FERRY_CAPACITY (firstSteps starve n) (initSys 0 fleetA)) := by
  induction n with
  | zero =>
    simp [Starved, starvePhase, starveCtrl, starveCar, firstSteps, run, initSys, fleetA,
      spawn]
  | succ k ih =>
    rw [run_firstSteps_succ, starvePhase_succ]
    exact (starved_step _ (starvePhase_lt k) _ ih).1

/-- C8, as stated, fails: `starve` is an infinite schedule for one car and
capacity 20 that never raises the stop signal, runs the car's thread and the
controller again and again for ever, each scheduled step taking effect, and yet
after every number of steps `completed_vehicles` is 0, not the population 1:
the ferry is empty and the car has not boarded.  Each time the car has passed
the optimistic check the ferry departs on a timed-out wait before the car's
re-check. -/
theorem fair_schedule_starves :
    (fleetA.length = 1 ∧ TRUCK_UNIT ≤ FERRY_CAPACITY) ∧
    (∀ n, starve n ≠ .stop) ∧
    (∀ n, ∃ m, n ≤ m ∧ starve m = .vehicle 0) ∧
    (∀ n, ∃ m, n ≤ m ∧ starve m = .controller true) ∧
    (∀ n, run FERRY_CAPACITY (firstSteps starve (n + 1)) (initSys 0 fleetA)
      ≠ run FERRY_CAPACITY (firstSteps starve n) (initSys 0 fleetA)) ∧
    (∀ n,
      (run FERRY_CAPACITY (firstSteps starve n) (initSys 0 fleetA)).g.completed_vehicles = 0 ∧
      (run FERRY_CAPACITY (firstSteps starve n) (initSys 0 fleetA)).g.stop_ferry = 0 ∧
      (run FERRY_CAPACITY (firstSteps starve n) (initSys 0 fleetA)).g.current_load = 0 ∧
      (run FERRY_CAPACITY (firstSteps starve n) (initSys 0 fleetA)).vs.map
        (fun t => (t.boarded_first, t.v.returned_home)) = [(0, 0)]) := by
  refine ⟨by decide, ?_, ?_, ?_, ?_, ?_⟩
  · intro n
    simp only [starve, starveAction]
    split_ifs <;> simp
  · intro n
    refine ⟨3 + 13 * n + 4, by omega, ?_⟩
    have hp : starvePhase (3 + 13 * n + 4) = 7 := by
      simp only [starvePhase]
      split_ifs <;> omega
    simp [starve, hp, starveAction]
  · intro n
    refine ⟨3 + 13 * n, by omega, ?_⟩
    have hp : starvePhase (3 + 13 * n) = 3 := by
      simp only [starvePhase]
      split_ifs <;> omega
    simp [starve, hp, starveAction]
  · intro n
    rw [run_firstSteps_succ]
    exact (starved_step _ (starvePhase_lt n) _ (starved_at n)).2
  · intro n
    obtain ⟨h1, h2, h3, _, _, _, _, h8⟩ := starved_at n
    refine ⟨h2, h3, h1, ?_⟩
    rw [h8]
    simp [mkVehicle]

theorem homeCount_set (l : List VThread) (i : Nat) (t x : VThread) (h : l[i]? = some t) :
    homeCount (l.set i x) = homeCount l - t.v.returned_home + x.v.returned_home := by
  induction l generalizing i with
  | nil => simp at h
  | cons a rest ih =>
    cases i with
    | zero =>
      simp only [List.getElem?_cons_zero, Option.some.injEq] at h
      subst h
      simp only [List.set_cons_zero, homeCount]
      ring
    | succ k =>
      simp only [List.getElem?_cons_succ] at h
      simp only [List.set_cons_succ, homeCount, ih k h]
      ring

theorem homeCount_le (l : List VThread) (hl : ∀ t ∈ l, t.v.returned_home ≤ 1) :
    homeCount l ≤ l.length := by
  induction l with
  | nil => simp [homeCount]
  | cons a rest ih =>
    have h1 := hl a (List.mem_cons_self a rest)
    have h2 := ih (fun t ht => hl t (List.mem_cons_of_mem a ht))
    simp only [homeCount, List.length_cons, Nat.cast_add, Nat.cast_one]
    omega

theorem homeCount_lt (l : List VThread) (hl : ∀ t ∈ l, t.v.returned_home ≤ 1)
    (i : Nat) (t : VThread) (h : l[i]? = some t) (h0 : t.v.returned_home = 0) :
    homeCount l < l.length := by
  induction l generalizing i with
  | nil => simp at h
  | cons a rest ih =>
    have h1 := hl a (List.mem_cons_self a rest)
    have hr : ∀ t ∈ rest, t.v.returned_home ≤ 1 :=
      fun t ht => hl t (List.mem_cons_of_mem a ht)
    simp only [homeCount, List.length_cons, Nat.cast_add, Nat.cast_one]
    cases i with
    | zero =>
      simp only [List.getElem?_cons_zero, Option.some.injEq] at h
      subst h
      have := homeCount_le rest hr
      omega
    | succ k =>
      simp only [List.getElem?_cons_succ] at h
      have := ih hr k h
      omega

theorem homeCount_all (l : List VThread) (hl : ∀ t ∈ l, t.v.returned_home = 1) :
    homeCount l = l.length := by
  induction l with
  | nil => simp [homeCount]
  | cons a rest ih =>
    have h1 := hl a (List.mem_cons_self a rest)
    have h2 := ih (fun t ht => hl t (List.mem_cons_of_mem a ht))
    simp only [homeCount, List.length_cons, Nat.cast_add, Nat.cast_one]
    omega

/-- What a vehicle step keeps of `Live`: the start side, the mark at the end of
a thread that no stop signal has ended, and the count of the marks. -/
theorem vstep_live (cap : Int) (g : Globals) (t : VThread) (h : VInv g.stop_ferry t)
    (hg : g.stop_ferry = 0) (hd : t.pc = .done → t.v.returned_home = 1) :
    (vehicle_thread_step cap g t).2.v.start_side = t.v.start_side ∧
    ((vehicle_thread_step cap g t).2.pc = .done →
      (vehicle_thread_step cap g t).2.v.returned_home = 1) ∧
    (vehicle_thread_step cap g t).1.completed_vehicles - g.completed_vehicles
      = (vehicle_thread_step cap g t).2.v.returned_home - t.v.returned_home := by
  obtain ⟨v, pc, d, bf, br⟩ := t
  obtain ⟨h1, h2, h3⟩ := h
  cases pc <;> simp only [vehicle_thread_step] <;> simp only [VInv] at h3 <;>
    (try split_ifs) <;> simp_all

theorem Live_step (cap : Int) (a : Action) (ha : a ≠ .stop) (s : Sys) (hi : Inv cap s)
    (h : Live s) : Live (sysStep cap a s) := by
  cases a with
  | vehicle i =>
    rcases sysStep_vehicle_cases cap i s with ⟨_, he⟩ | ⟨t, hti, _, he⟩
    · rw [he]; exact h
    · have hv := hi.threads t (List.getElem?_mem hti)
      obtain ⟨l1, l2, l3⟩ := vstep_live cap s.g t hv h.no_stop
        (h.threads t (List.getElem?_mem hti)).2
      rw [he]
      refine ⟨?_, ?_, ?_, ?_, ?_⟩
      · dsimp only; rw [vstep_stop]; exact h.no_stop
      · dsimp only; rw [vstep_side]; exact h.side01
      · intro t1 ht1
        dsimp only at ht1
        rcases List.mem_or_eq_of_mem_set ht1 with h1 | h1
        · exact h.threads t1 h1
        · rw [h1]
          exact ⟨by rw [l1]; exact (h.threads t (List.getElem?_mem hti)).1, l2⟩
      · intro hc
        dsimp only at hc ⊢
        have := h.ctrl_done hc
        have := vstep_completed cap s.g t
        omega
      · dsimp only
        rw [homeCount_set s.vs i t _ hti]
        have := h.counted
        omega
  | controller b =>
    have hg := fstep_globals cap b s.g s.ctrl
    simp only [sysStep]
    refine ⟨?_, ?_, h.threads, ?_, ?_⟩
    · dsimp only; rw [fstep_stop]; exact h.no_stop
    · dsimp only
      have := h.side01
      rcases hg with h1 | h1 <;> rw [h1] <;> (try dsimp only) <;> omega
    · dsimp only
      intro hc
      have hcomp : (ferry_manager_step cap b s.g s.ctrl).1.completed_vehicles
          = s.g.completed_vehicles := by
        rcases hg with h1 | h1 <;> rw [h1]
      rw [hcomp]
      have hns := h.no_stop
      have hcd := h.ctrl_done
      revert hc hcd
      obtain ⟨pc, w, e, m⟩ := s.ctrl
      cases pc <;> simp only [ferry_manager_step, depart] <;> (try split_ifs) <;>
        simp_all
    · dsimp only
      rcases hg with h1 | h1 <;> rw [h1] <;> exact h.counted
  | stop => exact absurd rfl ha

theorem Live_init (side : Int) (hside : side = 0 ∨ side = 1) (fleet : List Vehicle)
    (hf : ∀ v ∈ fleet, v.fresh) : Live (initSys side fleet) := by
  refine ⟨rfl, hside, ?_, ?_, ?_⟩
  · intro t ht
    simp only [initSys, List.mem_map] at ht
    obtain ⟨v, hv, rfl⟩ := ht
    exact ⟨(hf v hv).2.1, by simp [spawn]⟩
  · intro hc
    simp [initSys] at hc
  · simp only [initSys]
    induction fleet with
    | nil => rfl
    | cons a rest ih =>
      have h1 := (hf a (List.mem_cons_self a rest)).2.2.2.2
      have h2 := ih (fun v hv => hf v (List.mem_cons_of_mem a hv))
      simp only [List.map_cons, homeCount, spawn, h1] at h2 ⊢
      omega

theorem Live_run (cap : Int) (hcap : 0 ≤ cap) (acts : List Action)
    (ha : Action.stop ∉ acts) (s : Sys) (hi : Inv cap s) (h : Live s) :
    Live (run cap acts s) := by
  induction acts generalizing s with
  | nil => exact h
  | cons a rest ih =>
    have h1 : a ≠ .stop := fun e => ha (by rw [e]; exact List.mem_cons_self _ _)
    have h2 : Action.stop ∉ rest := fun e => ha (List.mem_cons_of_mem a e)
    exact ih h2 _ (Inv_step cap hcap a s hi) (Live_step cap a h1 s hi h)

theorem controllerOnly_stop_free (bs : List Bool) : Action.stop ∉ controllerOnly bs := by
  simp [controllerOnly]

/-- Controller steps leave the threads, the completed count and the stop flag
alone. -/
theorem ctrl_run_frame (cap : Int) (bs : List Bool) (s : Sys) :
    (run cap (controllerOnly bs) s).vs = s.vs ∧
    (run cap (controllerOnly bs) s).g.completed_vehicles = s.g.completed_vehicles ∧
    (run cap (controllerOnly bs) s).g.stop_ferry = s.g.stop_ferry := by
  induction bs generalizing s with
  | nil => exact ⟨rfl, rfl, rfl⟩
  | cons b rest ih =>
    obtain ⟨h1, h2, h3⟩ := ih (sysStep cap (.controller b) s)
    simp only [controllerOnly, List.map_cons, run] at h1 h2 h3 ⊢
    refine ⟨h1, ?_, ?_⟩
    · rw [h2]
      simp only [sysStep]
      rcases fstep_globals cap b s.g s.ctrl with h4 | h4 <;> rw [h4]
    · rw [h3]
      simp only [sysStep]
      exact fstep_stop cap b s.g s.ctrl

theorem ctrl_rank_pos (g : Globals) (c : Ctrl) (hc : CInv g c) (hpc : c.pc ≠ .done) :
    1 ≤ ctrl_rank c := by
  obtain ⟨pc, w, e, m⟩ := c
  obtain ⟨h1, h2, h3⟩ := hc
  cases pc <;> simp only [CInv] at h3 <;> simp only [ctrl_rank] <;>
    first | exact absurd rfl hpc | (dsimp only at *; omega)

/-- A controller step whose wait, if any, times out either is a departure, after
which the controller is back at the top of its loop with both counters 0 and
the ferry empty, or brings the next departure nearer. -/
theorem ctrl_progress (cap : Int) (g : Globals) (c : Ctrl) (hc : CInv g c)
    (hs : g.stop_ferry = 0) (hpc : c.pc ≠ .done) :
    ((ferry_manager_step cap true g c).2.pc = .top ∧
      (ferry_manager_step cap true g c).2.wait_cycles = 0 ∧
      (ferry_manager_step cap true g c).2.empty_ferry_cycles = 0 ∧
      (ferry_manager_step cap true g c).1.current_load = 0) ∨
    ctrl_rank (ferry_manager_step cap true g c).2 < ctrl_rank c := by
  obtain ⟨pc, w, e, m⟩ := c
  obtain ⟨h1, h2, h3⟩ := hc
  cases pc <;> simp only [ferry_manager_step, depart, awaiting_load] <;>
    simp only [CInv] at h3 <;> (try split_ifs) <;>
    first
      | exact absurd rfl hpc
      | (left; exact ⟨rfl, rfl, rfl, rfl⟩)
      | (right; simp only [ctrl_rank]; dsimp only at *; omega)

/-- From every state reached without the stop signal in which not all of
`TOTAL_VEHICLES` vehicles have completed, controller steps alone lead to a
departure: to the controller at the top of its loop, counters 0, ferry empty. -/
theorem ctrl_to_departure (cap : Int) (hcap : 0 ≤ cap) (n : Nat) (s : Sys)
    (hi : Inv cap s) (hl : Live s) (hc : s.g.completed_vehicles < TOTAL_VEHICLES)
    (hn : ctrl_rank s.ctrl ≤ n) :
    ∃ bs : List Bool,
      (run cap (controllerOnly bs) s).ctrl.pc = .top ∧
      (run cap (controllerOnly bs) s).ctrl.wait_cycles = 0 ∧
      (run cap (controllerOnly bs) s).ctrl.empty_ferry_cycles = 0 ∧
      (run cap (controllerOnly bs) s).g.current_load = 0 := by
  have hnd : ∀ s1 : Sys, Live s1 → s1.g.completed_vehicles < TOTAL_VEHICLES →
      s1.ctrl.pc ≠ .done := by
    intro s1 h1 h2 h3
    have := h1.ctrl_done h3
    omega
  induction n generalizing s with
  | zero =>
    have := ctrl_rank_pos s.g s.ctrl hi.ctrl (hnd s hl hc)
    simp only [Nat.cast_zero] at hn
    omega
  | succ k ih =>
    have hstep := ctrl_progress cap s.g s.ctrl hi.ctrl hl.no_stop (hnd s hl hc)
    rcases hstep with ⟨h1, h2, h3, h4⟩ | h1
    · exact ⟨[true], h1, h2, h3, h4⟩
    · have hi1 := Inv_step cap hcap (.controller true) s hi
      have hl1 := Live_step cap (.controller true) (by simp) s hi hl
      have hc1 : (sysStep cap (.controller true) s).g.completed_vehicles
          < TOTAL_VEHICLES := by
        have := (ctrl_run_frame cap [true] s).2.1
        simp only [controllerOnly, List.map_cons, List.map_nil, run] at this
        rw [this]; exact hc
      have hn1 : ctrl_rank (sysStep cap (.controller true) s).ctrl ≤ k := by
        simp only [sysStep]
        push_cast at hn
        omega
      obtain ⟨bs, hb⟩ := ih _ hi1 hl1 hc1 hn1
      exact ⟨true :: bs, hb⟩

/-- From that state four more controller steps, the wait timing out, are an
empty departure: the ferry is at the other side, everything else as before. -/
theorem empty_departure (cap : Int) (s : Sys) (hs : s.g.stop_ferry = 0)
    (hc : s.g.completed_vehicles < TOTAL_VEHICLES) (h1 : s.ctrl.pc = .top)
    (h2 : s.ctrl.wait_cycles = 0) (h3 : s.ctrl.empty_ferry_cycles = 0)
    (h4 : s.g.current_load = 0) :
    (run cap (controllerOnly [true, true, true, true]) s).ctrl.pc = .top ∧
    (run cap (controllerOnly [true, true, true, true]) s).g.current_load = 0 ∧
    (run cap (controllerOnly [true, true, true, true]) s).g.ferry_side
      = 1 - s.g.ferry_side := by
  obtain ⟨⟨side, load, comp, act, stop, deps, vas⟩, ⟨cpc, w, e, m⟩, vs⟩ := s
  dsimp only at hs hc h1 h2 h3 h4
  subst hs h1 h2 h3 h4
  have hc1 : ¬ (comp ≥ TOTAL_VEHICLES) := not_le.mpr hc
  simp [controllerOnly, run, sysStep, ferry_manager_step, depart, awaiting_load, hc, hc1]

/-- The controller alone can bring the empty ferry to either side, ending at the
top of its loop. -/
theorem ferry_to (cap : Int) (hcap : 0 ≤ cap) (s : Sys) (hi : Inv cap s) (hl : Live s)
    (hc : s.g.completed_vehicles < TOTAL_VEHICLES) (x : Int) (hx : x = 0 ∨ x = 1) :
    ∃ bs : List Bool,
      (run cap (controllerOnly bs) s).ctrl.pc = .top ∧
      (run cap (controllerOnly bs) s).g.current_load = 0 ∧
      (run cap (controllerOnly bs) s).g.ferry_side = x := by
  have hr : ∃ n : Nat, ctrl_rank s.ctrl ≤ n :=
    ⟨(ctrl_rank s.ctrl).toNat, Int.self_le_toNat _⟩
  obtain ⟨n, hn⟩ := hr
  obtain ⟨bs, b1, b2, b3, b4⟩ := ctrl_to_departure cap hcap n s hi hl hc hn
  obtain ⟨f1, f2, f3⟩ := ctrl_run_frame cap bs s
  have hl1 := Live_run cap hcap _ (controllerOnly_stop_free bs) s hi hl
  by_cases hside : (run cap (controllerOnly bs) s).g.ferry_side = x
  · exact ⟨bs, b1, b4, hside⟩
  · obtain ⟨e1, e2, e3⟩ := empty_departure cap (run cap (controllerOnly bs) s)
      hl1.no_stop (by rw [f2]; exact hc) b1 b2 b3 b4
    refine ⟨bs ++ [true, true, true, true], ?_⟩
    have happ : run cap (controllerOnly (bs ++ [true, true, true, true])) s
        = run cap (controllerOnly [true, true, true, true])
            (run cap (controllerOnly bs) s) := by
      simp only [controllerOnly, List.map_append, run_append]
    rw [happ]
    refine ⟨e1, e2, ?_⟩
    rw [e3]
    have := hl1.side01
    omega

/-- With the empty ferry docked at the vehicle's side and no stop signal, every
step of a thread that has not ended is a step forward. -/
theorem advance_step (cap : Int) (hcap : TRUCK_UNIT ≤ cap) (g : Globals) (t : VThread)
    (h : VInv g.stop_ferry t) (hs : g.stop_ferry = 0)
    (hside : g.ferry_side = t.v.current_side) (hload : g.current_load = 0)
    (hnd : t.pc ≠ .done) :
    trip_rank (vehicle_thread_step cap g t).2 < trip_rank t := by
  obtain ⟨v, pc, d, bf, br⟩ := t
  obtain ⟨h1, h2, h3⟩ := h
  have hcb : can_board cap g v := by
    simp only [TRUCK_UNIT] at hcap
    dsimp only at h1 h2 hside
    exact ⟨hside, by omega⟩
  cases pc <;> simp only [VInv] at h3 <;>
    first
      | exact absurd rfl hnd
      | (simp only [vehicle_thread_step, trip_rank, hcb, if_true]
         dsimp only at *
         (try split_ifs) <;> first | omega | simp_all)

/-- What the thread invariant says of a thread that has not ended, when no stop
signal was raised: it is not marked, and it is recorded at side 0 or 1. -/
theorem VInv_alive (stop : Int) (t : VThread) (h : VInv stop t) (hs : stop = 0)
    (hnd : t.pc ≠ .done) (h01 : t.v.start_side = 0 ∨ t.v.start_side = 1) :
    t.v.returned_home = 0 ∧ (t.v.current_side = 0 ∨ t.v.current_side = 1) := by
  obtain ⟨v, pc, d, bf, br⟩ := t
  obtain ⟨h1, h2, h3⟩ := h
  cases pc <;> simp only [VInv] at h3 <;>
    first
      | exact absurd rfl hnd
      | (dsimp only at *; omega)

theorem VInv_home_le (stop : Int) (t : VThread) (h : VInv stop t) :
    t.v.returned_home ≤ 1 := by
  obtain ⟨v, pc, d, bf, br⟩ := t
  obtain ⟨h1, h2, h3⟩ := h
  cases pc <;> simp only [VInv] at h3 <;> dsimp only at * <;> omega

theorem trip_rank_zero (t : VThread) (h : trip_rank t ≤ 0) : t.pc = .done := by
  obtain ⟨v, pc, d, bf, br⟩ := t
  cases pc <;> simp only [trip_rank] at h <;>
    first | rfl | (split_ifs at h <;> omega) | omega

theorem run_length (cap : Int) (acts : List Action) (s : Sys) :
    (run cap acts s).vs.length = s.vs.length := by
  induction acts generalizing s with
  | nil => rfl
  | cons a rest ih =>
    simp only [run]
    rw [ih]
    cases a with
    | vehicle i =>
      rcases sysStep_vehicle_cases cap i s with ⟨_, he⟩ | ⟨t, _, _, he⟩ <;> rw [he]
      exact List.length_set _ _ _
    | controller b => rfl
    | stop => rcases sysStep_stop_cases cap s with he | ⟨_, he⟩ <;> rw [he]

theorem run_other (cap : Int) (acts : List Action) (j : Nat)
    (h : Action.vehicle j ∉ acts) (s : Sys) :
    (run cap acts s).vs[j]? = s.vs[j]? := by
  induction acts generalizing s with
  | nil => rfl
  | cons a rest ih =>
    have h1 : a ≠ .vehicle j := fun e => h (by rw [e]; exact List.mem_cons_self _ _)
    have h2 : Action.vehicle j ∉ rest := fun e => h (List.mem_cons_of_mem a e)
    simp only [run]
    rw [ih h2, sysStep_other cap a s j h1]

/-- While a vehicle has not completed, fewer than `TOTAL_VEHICLES` have. -/
theorem completed_lt (cap : Int) (s : Sys) (hi : Inv cap s) (hl : Live s)
    (hlen : (s.vs.length : Int) ≤ TOTAL_VEHICLES) (i : Nat) (t : VThread)
    (ht : s.vs[i]? = some t) (hnd : t.pc ≠ .done) :
    s.g.completed_vehicles < TOTAL_VEHICLES := by
  have hmem := List.getElem?_mem ht
  have h0 := (VInv_alive _ t (hi.threads t hmem) hl.no_stop hnd (hl.threads t hmem).1).1
  have hlt := homeCount_lt s.vs (fun t1 h1 => VInv_home_le _ t1 (hi.threads t1 h1)) i t ht h0
  have := hl.counted
  omega

/-- One vehicle can always be driven to its end: the controller brings the empty
ferry to its side before each of its steps. -/
theorem drive_vehicle (cap : Int) (hcap : TRUCK_UNIT ≤ cap) (i : Nat) (n : Nat) (s : Sys)
    (hi : Inv cap s) (hl : Live s) (hlen : (s.vs.length : Int) ≤ TOTAL_VEHICLES)
    (t : VThread) (ht : s.vs[i]? = some t) (hn : trip_rank t ≤ n) :
    ∃ acts : List Action, Action.stop ∉ acts ∧ (∀ j, j ≠ i → Action.vehicle j ∉ acts) ∧
      ∃ t1, (run cap acts s).vs[i]? = some t1 ∧ t1.pc = .done := by
  have hcap0 : 0 ≤ cap := by simp only [TRUCK_UNIT] at hcap; omega
  induction n generalizing s t with
  | zero => exact ⟨[], by simp, by simp, t, ht, trip_rank_zero t hn⟩
  | succ k ih =>
    by_cases hnd : t.pc = .done
    · exact ⟨[], by simp, by simp, t, ht, hnd⟩
    · have hmem := List.getElem?_mem ht
      have hc := completed_lt cap s hi hl hlen i t ht hnd
      have hcur := (VInv_alive _ t (hi.threads t hmem) hl.no_stop hnd
        (hl.threads t hmem).1).2
      obtain ⟨bs, b1, b2, b3⟩ := ferry_to cap hcap0 s hi hl hc t.v.current_side hcur
      obtain ⟨f1, _, _⟩ := ctrl_run_frame cap bs s
      have hi2 := Inv_run cap hcap0 (controllerOnly bs) s hi
      have hl2 := Live_run cap hcap0 _ (controllerOnly_stop_free bs) s hi hl
      have ht2 : (run cap (controllerOnly bs) s).vs[i]? = some t := by rw [f1]; exact ht
      have hmem2 := List.getElem?_mem ht2
      rcases sysStep_vehicle_cases cap i (run cap (controllerOnly bs) s) with
        ⟨hx, _⟩ | ⟨t2, ht3, _, he⟩
      · exfalso
        rcases hx with hx | ⟨t2, _, _, hx⟩
        · rw [hx] at ht2; exact absurd ht2 (by simp)
        · rw [b1] at hx; exact absurd hx (by decide)
      · have htt : t2 = t := by rw [ht2] at ht3; exact (Option.some.inj ht3).symm
        subst htt
        have hadv := advance_step cap hcap (run cap (controllerOnly bs) s).g t2
          (hi2.threads t2 hmem2) hl2.no_stop b3 b2 hnd
        have hi3 := Inv_step cap hcap0 (.vehicle i) _ hi2
        have hl3 := Live_step cap (.vehicle i) (by simp) _ hi2 hl2
        have hself := sysStep_self cap _ i t2 ht2 he
        have hlen3 : ((sysStep cap (.vehicle i) (run cap (controllerOnly bs) s)).vs.length
            : Int) ≤ TOTAL_VEHICLES := by
          have h1 := run_length cap (controllerOnly bs ++ [.vehicle i]) s
          simp only [run_append, run] at h1
          rw [h1]; exact hlen
        obtain ⟨acts, a1, a2, t1, a3, a4⟩ := ih _ hi3 hl3 hlen3 _ hself (by omega)
        refine ⟨controllerOnly bs ++ (.vehicle i :: acts), ?_, ?_, t1, ?_, a4⟩
        · intro hm
          rcases List.mem_append.mp hm with h1 | h1
          · exact controllerOnly_stop_free bs h1
          · rcases List.mem_cons.mp h1 with h2 | h2
            · exact absurd h2 (by simp)
            · exact a1 h2
        · intro j hj hm
          rcases List.mem_append.mp hm with h1 | h1
          · simp [controllerOnly] at h1
          · rcases List.mem_cons.mp h1 with h2 | h2
            · exact hj (by injection h2)
            · exact a2 j hj h2
        · simp only [run_append, run]
          exact a3

/-- The first `k` vehicles can be driven to their ends one after the other. -/
theorem drive_all (cap : Int) (hcap : TRUCK_UNIT ≤ cap) (k : Nat) (s : Sys)
    (hi : Inv cap s) (hl : Live s) (hlen : (s.vs.length : Int) ≤ TOTAL_VEHICLES)
    (hk : k ≤ s.vs.length) :
    ∃ acts : List Action, Action.stop ∉ acts ∧
      ∀ j, j < k → ∃ t1, (run cap acts s).vs[j]? = some t1 ∧ t1.pc = .done := by
  have hcap0 : 0 ≤ cap := by simp only [TRUCK_UNIT] at hcap; omega
  induction k with
  | zero => exact ⟨[], by simp, fun j hj => absurd hj (by omega)⟩
  | succ k ih =>
    obtain ⟨acts1, a1, a2⟩ := ih (by omega)
    have hi1 := Inv_run cap hcap0 acts1 s hi
    have hl1 := Live_run cap hcap0 acts1 a1 s hi hl
    have hlen1 := run_length cap acts1 s
    have hk1 : k < (run cap acts1 s).vs.length := by rw [hlen1]; omega
    have ht : (run cap acts1 s).vs[k]? = some ((run cap acts1 s).vs[k]) :=
      List.getElem?_eq_getElem hk1
    obtain ⟨acts2, b1, b2, t1, b3, b4⟩ := drive_vehicle cap hcap k
      (trip_rank ((run cap acts1 s).vs[k])) _ hi1 hl1 (by rw [hlen1]; exact hlen) _ ht
      (le_refl _)
    refine ⟨acts1 ++ acts2, ?_, ?_⟩
    · intro hm
      rcases List.mem_append.mp hm with h1 | h1
      · exact a1 h1
      · exact b1 h1
    · intro j hj
      rw [run_append]
      by_cases hjk : j = k
      · subst hjk; exact ⟨t1, b3, b4⟩
      · obtain ⟨t2, c1, c2⟩ := a2 j (by omega)
        exact ⟨t2, by rw [run_other cap acts2 j (b2 j hjk)]; exact c1, c2⟩

/-- C8 (termination), amended to what the code guarantees: completion is always
possible, not certain.  For every capacity that holds the largest unit size,
every population of at most `TOTAL_VEHICLES` vehicles as `main` creates them and
either starting side of the ferry, every run without the stop signal can be
continued, again without the stop signal, to a state in which
`completed_vehicles` equals the population and every vehicle thread has ended
with its vehicle marked `returned_home`.  So no reachable state is a deadlock
and no vehicle is ever beyond completing. -/
theorem completion_always_possible (cap : Int) (hcap : TRUCK_UNIT ≤ cap) (side : Int)
    (hside : side = 0 ∨ side = 1) (fleet : List Vehicle) (hf : ∀ v ∈ fleet, v.fresh)
    (hmax : (fleet.length : Int) ≤ TOTAL_VEHICLES) (acts : List Action)
    (hacts : Action.stop ∉ acts) :
    ∃ more : List Action, Action.stop ∉ more ∧
      (run cap (acts ++ more) (initSys side fleet)).g.completed_vehicles = fleet.length ∧
      (run cap (acts ++ more) (initSys side fleet)).g.stop_ferry = 0 ∧
      ∀ t ∈ (run cap (acts ++ more) (initSys side fleet)).vs,
        t.pc = .done ∧ t.v.returned_home = 1 := by
  have hcap0 : 0 ≤ cap := by simp only [TRUCK_UNIT] at hcap; omega
  have hi0 := Inv_reach cap hcap0 side fleet hf acts
  have hl0 := Live_run cap hcap0 acts hacts _ (Inv_init cap hcap0 side fleet hf)
    (Live_init side hside fleet hf)
  have hlen0 : (run cap acts (initSys side fleet)).vs.length = fleet.length := by
    rw [run_length]; simp [initSys]
  obtain ⟨more, m1, m2⟩ := drive_all cap hcap (run cap acts (initSys side fleet)).vs.length
    _ hi0 hl0 (by rw [hlen0]; exact hmax) (le_refl _)
  have hlF := Live_run cap hcap0 more m1 _ hi0 hl0
  have hlenF := run_length cap more (run cap acts (initSys side fleet))
  rw [← run_append] at m2 hlF hlenF
  have hall : ∀ t ∈ (run cap (acts ++ more) (initSys side fleet)).vs,
      t.pc = .done ∧ t.v.returned_home = 1 := by
    intro t ht
    obtain ⟨j, hj⟩ := List.mem_iff_getElem?.mp ht
    have hjlt : j < (run cap (acts ++ more) (initSys side fleet)).vs.length := by
      by_contra hge
      rw [List.getElem?_eq_none (by omega)] at hj
      exact absurd hj (by simp)
    obtain ⟨t1, h1, h2⟩ := m2 j (by rw [← hlenF]; exact hjlt)
    have ht1 : t1 = t := by rw [hj] at h1; exact (Option.some.inj h1).symm
    subst ht1
    exact ⟨h2, (hlF.threads t1 ht).2 h2⟩
  refine ⟨more, m1, ?_, hlF.no_stop, hall⟩
  rw [hlF.counted, homeCount_all _ (fun t ht => (hall t ht).2), hlenF, hlen0]

theorem completion_always_possible_witness :
    ∃ more : List Action, Action.stop ∉ more ∧
      (run FERRY_CAPACITY (firstSteps starve 16 ++ more) (initSys 0 fleetA)).g.completed_vehicles
        = fleetA.length :=
  (completion_always_possible FERRY_CAPACITY (by decide) 0 (Or.inl rfl) fleetA (by decide)
    (by decide) (firstSteps starve 16) (by decide)).imp (fun _ h => ⟨h.1, h.2.1⟩)

end Ferry
